import Mathlib

/-!
Verification of the number-theoretic core of the `mathematical-foundations`
educational cryptography repository.

The JavaScript sources (`js/crypto-demos/math-utils.js`, `rsa-core.js`,
`ec-math-utils.js`) compute with arbitrary-precision `BigInt` values.  The
shallow embedding below models `BigInt` as `Int`.  JavaScript's `%` on
`BigInt` is truncated remainder (sign of the dividend) and `/` is truncated
division (rounding towards zero), so they are modelled by `Int.tmod` and
`Int.tdiv` respectively; `>>` is an arithmetic shift, modelled by Euclidean
division by a power of two, and `& 1n` extracts the two's-complement low
bit, modelled by `Int.emod · 2`.  JavaScript strings are modelled as lists
of UTF-16 code units (`List Nat`).  A `throw` is modelled by `Except.error`
with a dedicated error value per distinct throw site.
-/

/-- Truncated remainder has absolute value `|a| % |b|` (JavaScript `%`). -/
theorem natAbs_tmod (a b : Int) : (a.tmod b).natAbs = a.natAbs % b.natAbs := by
  cases a <;> cases b <;> simp [Int.tmod] <;> rfl

/-- Truncated remainder is bounded below by `-|b|`. -/
theorem neg_lt_tmod (a : Int) {b : Int} (hb : b ≠ 0) : -b.natAbs < a.tmod b := by
  have h1 : (a.tmod b).natAbs < b.natAbs := by
    rw [natAbs_tmod]
    exact Nat.mod_lt _ (Int.natAbs_pos.mpr hb)
  omega

/-- Truncated remainder is bounded above by `|b|`. -/
theorem tmod_lt_natAbs (a : Int) {b : Int} (hb : b ≠ 0) : a.tmod b < b.natAbs := by
  have h1 : (a.tmod b).natAbs < b.natAbs := by
    rw [natAbs_tmod]
    exact Nat.mod_lt _ (Int.natAbs_pos.mpr hb)
  omega

/-- Truncated remainder agrees with the dividend modulo the divisor. -/
theorem tmod_modEq (a b : Int) : a.tmod b ≡ a [ZMOD b] := by
  have h := Int.tmod_add_tdiv a b
  have h2 : a.tmod b = a - b * a.tdiv b := by omega
  show a.tmod b % b = a % b
  rw [h2, Int.sub_emod, Int.mul_emod_right, sub_zero, Int.emod_emod_of_dvd _ dvd_rfl]

/-- Normalising a truncated remainder into `[0, n)` yields the Euclidean
remainder, exactly as the JavaScript pattern `if (r < 0) r += n` intends. -/
theorem tmod_fixup_eq_emod (x n : Int) (hn : 0 < n) :
    (if x.tmod n < 0 then x.tmod n + n else x.tmod n) = x % n := by
  have hne : n ≠ 0 := by omega
  have hub : x.tmod n < n := by
    have := tmod_lt_natAbs x hne
    omega
  have hlb : -n < x.tmod n := by
    have := neg_lt_tmod x hne
    omega
  have hmod : x.tmod n ≡ x [ZMOD n] := tmod_modEq x n
  by_cases hneg : x.tmod n < 0
  · rw [if_pos hneg]
    have h2 : x.tmod n + n ≡ x [ZMOD n] := by
      calc x.tmod n + n ≡ x.tmod n + 0 [ZMOD n] := by
            exact Int.ModEq.add_left _ (Int.modEq_zero_iff_dvd.mpr ⟨1, by ring⟩)
        _ = x.tmod n := by ring
        _ ≡ x [ZMOD n] := hmod
    have h3 : (x.tmod n + n) % n = x % n := h2
    rw [← h3, Int.emod_eq_of_lt (by omega) (by omega)]
  · rw [if_neg hneg]
    have h3 : (x.tmod n) % n = x % n := hmod
    rw [← h3, Int.emod_eq_of_lt (by omega) (by omega)]

/-- Bit length of a natural number, the length of `n.toString(2)` in
JavaScript for `n > 0`. -/
def bitLen : Nat → Nat
  | 0 => 0
  | n + 1 => bitLen ((n + 1) / 2) + 1
decreasing_by exact Nat.div_lt_self (Nat.succ_pos n) one_lt_two

theorem lt_two_pow_bitLen (n : Nat) : n < 2 ^ bitLen n := by
  induction n using Nat.strong_induction_on with
  | _ n ih =>
    match n with
    | 0 => simp [bitLen]
    | m + 1 =>
      rw [bitLen]
      have h1 : (m + 1) / 2 < m + 1 := Nat.div_lt_self (Nat.succ_pos m) one_lt_two
      have h2 := ih ((m + 1) / 2) h1
      have h3 : m + 1 < 2 * (2 ^ bitLen ((m + 1) / 2)) := by omega
      rw [pow_succ]
      omega

/-! ## math-utils.js : `extendedGCD`, `modInverse`, `modPow`,
`modPowConstantTime`, `stringToBigInt`, `bigIntToString` -/

/-- Embedding of `extendedGCD(a, b)` from `math-utils.js`, returning the
triple `(gcd, x, y)` of the JavaScript result object. -/
def extendedGCD (a b : Int) : Int × Int × Int :=
  if b = 0 then (a, 1, 0)
  else
    let r := extendedGCD b (a.tmod b)
    (r.1, r.2.2, r.2.1 - a.tdiv b * r.2.2)
termination_by b.natAbs
decreasing_by
  rw [natAbs_tmod]
  exact Nat.mod_lt _ (Int.natAbs_pos.mpr (by assumption))

/-- Embedding of `modInverse(a, n)` from `math-utils.js`. -/
def modInverse (a n : Int) : Option Int :=
  let r := extendedGCD a n
  if r.1 ≠ 1 then none
  else
    let inverse := r.2.1.tmod n
    some (if inverse < 0 then inverse + n else inverse)

/-- The square-and-multiply loop of `modPow` (the `while` loop over the bits
of the exponent, processed right to left). -/
def modPowLoop (modulus result base exponent : Int) : Int :=
  if 0 < exponent then
    modPowLoop modulus
      (if exponent.tmod 2 = 1 then (result * base).tmod modulus else result)
      ((base * base).tmod modulus)
      (exponent.tdiv 2)
  else result
termination_by exponent.toNat
decreasing_by
  rename_i h
  have h1 : exponent.tdiv 2 = exponent / 2 := Int.tdiv_eq_ediv (by omega) (by omega)
  omega

/-- Embedding of `modPow(base, exponent, modulus)` from `math-utils.js`. -/
def modPow (base exponent modulus : Int) : Int :=
  if modulus = 1 then 0
  else if exponent = 0 then 1
  else if exponent = 1 then base.tmod modulus
  else modPowLoop modulus 1 (base.tmod modulus) exponent

/-- One step of the Montgomery ladder of `modPowConstantTime`: both
assignments in each branch read the pre-update `R0` and `R1`. -/
def ladderStep (modulus R0 R1 : Int) (bit : Bool) : Int × Int :=
  if bit then ((R0 * R1).tmod modulus, (R1 * R1).tmod modulus)
  else ((R0 * R0).tmod modulus, (R0 * R1).tmod modulus)

/-- Most-significant-bit-first binary digits of a natural number,
accumulator version. -/
def bitsMSBAux : Nat → List Bool → List Bool
  | 0, acc => acc
  | n + 1, acc => bitsMSBAux ((n + 1) / 2) (decide ((n + 1) % 2 = 1) :: acc)
decreasing_by exact Nat.div_lt_self (Nat.succ_pos n) one_lt_two

/-- Most-significant-bit-first binary digits of a natural number; for
`n > 0` this is the character sequence of JavaScript `n.toString(2)`. -/
def bitsMSB (n : Nat) : List Bool := bitsMSBAux n []

/-- The characters of `exponent.toString(2)` from index 1 onwards, as
iterated by the `for` loop of `modPowConstantTime`: for a nonnegative
exponent the leading binary digit is skipped, while for a negative exponent
index 0 holds the sign character and all binary digits of the magnitude are
processed. -/
def ctBits (exponent : Int) : List Bool :=
  if exponent < 0 then bitsMSB exponent.natAbs else (bitsMSB exponent.natAbs).drop 1

/-- Embedding of `modPowConstantTime(base, exponent, modulus)` from
`math-utils.js`: a Montgomery ladder over `exponent.toString(2)` that
starts at string index 1 with `R0 = 1`, `R1 = base % modulus`. -/
def modPowConstantTime (base exponent modulus : Int) : Int :=
  if modulus = 1 then 0
  else if exponent = 0 then 1
  else
    let b := base.tmod modulus
    (List.foldl (fun (R : Int × Int) bit => ladderStep modulus R.1 R.2 bit)
      (1, b) (ctBits exponent)).1

/-- Embedding of `stringToBigInt(str)` from `math-utils.js`; the string is
modelled as its list of UTF-16 code units. -/
def stringToBigInt (s : List Nat) : Int :=
  s.foldl (fun (result : Int) (c : Nat) => result * 256 + (c : Int)) 0

/-- The digit-extraction loop of `bigIntToString`: repeatedly `unshift` the
low base-256 digit, so the accumulator holds the digits already extracted,
most significant first. -/
def bigIntToStringLoop (remaining : Int) (chars : List Nat) : List Nat :=
  if 0 < remaining then
    bigIntToStringLoop (remaining.tdiv 256) ((remaining.tmod 256).toNat :: chars)
  else chars
termination_by remaining.toNat
decreasing_by
  rename_i h
  have h1 : remaining.tdiv 256 = remaining / 256 := Int.tdiv_eq_ediv (by omega) (by omega)
  omega

/-- Embedding of `bigIntToString(num)` from `math-utils.js`. -/
def bigIntToString (num : Int) : List Nat :=
  if num = 0 then [0]
  else bigIntToStringLoop num []


/-! ## Correctness of `modPow` -/

theorem modPowLoop_spec (m : Int) (hm : 0 < m) : ∀ (E : Nat) (r b : Int),
    0 ≤ r → r < m → 0 ≤ b →
    modPowLoop m r b (E : Int) = (r * b ^ E) % m := by
  intro E
  induction E using Nat.strong_induction_on with
  | _ E ih =>
    intro r b hr hrm hb
    rw [modPowLoop]
    by_cases hE0 : E = 0
    · subst hE0
      have hnlt : ¬ (0 : Int) < ((0 : Nat) : Int) := by norm_num
      rw [if_neg hnlt, pow_zero, mul_one, Int.emod_eq_of_lt hr hrm]
    · have hpos : (0 : Int) < (E : Int) := by exact_mod_cast Nat.pos_of_ne_zero hE0
      rw [if_pos hpos]
      have ht : ((E : Int)).tdiv 2 = ((E / 2 : Nat) : Int) := by
        rw [Int.tdiv_eq_ediv (by positivity) (by norm_num)]; omega
      have htm : ((E : Int)).tmod 2 = ((E % 2 : Nat) : Int) := by
        rw [Int.tmod_eq_emod (by positivity) (by norm_num)]; omega
      set r' : Int := if (E : Int).tmod 2 = 1 then (r * b).tmod m else r with hrdef
      have hbb : (b * b).tmod m = (b * b) % m :=
        Int.tmod_eq_emod (mul_nonneg hb hb) (le_of_lt hm)
      have hr'0 : 0 ≤ r' := by
        rw [hrdef]
        split
        · rw [Int.tmod_eq_emod (mul_nonneg hr hb) (le_of_lt hm)]
          exact Int.emod_nonneg _ (by omega)
        · exact hr
      have hr'm : r' < m := by
        rw [hrdef]
        split
        · rw [Int.tmod_eq_emod (mul_nonneg hr hb) (le_of_lt hm)]
          exact Int.emod_lt_of_pos _ hm
        · exact hrm
      have hb'0 : 0 ≤ (b * b).tmod m := by
        rw [hbb]; exact Int.emod_nonneg _ (by omega)
      rw [ht, ih (E / 2) (Nat.div_lt_self (Nat.pos_of_ne_zero hE0) one_lt_two) r'
        ((b * b).tmod m) hr'0 hr'm hb'0]
      show r' * ((b * b).tmod m) ^ (E / 2) ≡ r * b ^ E [ZMOD m]
      have hstep1 : r' ≡ r * b ^ (E % 2) [ZMOD m] := by
        rw [hrdef]
        by_cases hodd : (E : Int).tmod 2 = 1
        · have hE2 : E % 2 = 1 := by rw [htm] at hodd; exact_mod_cast hodd
          rw [if_pos hodd, hE2, pow_one,
            Int.tmod_eq_emod (mul_nonneg hr hb) (le_of_lt hm)]
          exact Int.emod_emod_of_dvd _ dvd_rfl
        · have hE2 : E % 2 = 0 := by
            rw [htm] at hodd
            omega
          rw [if_neg hodd, hE2, pow_zero, mul_one]
      have hstep2 : ((b * b).tmod m) ^ (E / 2) ≡ (b * b) ^ (E / 2) [ZMOD m] := by
        rw [hbb]
        exact Int.ModEq.pow _ (Int.emod_emod_of_dvd _ dvd_rfl)
      calc r' * ((b * b).tmod m) ^ (E / 2)
          ≡ (r * b ^ (E % 2)) * ((b * b) ^ (E / 2)) [ZMOD m] := Int.ModEq.mul hstep1 hstep2
        _ = r * b ^ (E % 2 + 2 * (E / 2)) := by rw [pow_add, pow_mul]; ring
        _ = r * b ^ E := by rw [Nat.mod_add_div E 2]

theorem modPow_spec (b e m : Int) (hb : 0 ≤ b) (he : 0 ≤ e) (hm : 0 < m) :
    modPow b e m = b ^ e.toNat % m := by
  rw [modPow]
  by_cases hm1 : m = 1
  · rw [if_pos hm1, hm1, Int.emod_one]
  · rw [if_neg hm1]
    have hm2 : 1 < m := by omega
    by_cases he0 : e = 0
    · rw [if_pos he0, he0]
      simp [Int.emod_eq_of_lt, hm2]
    · rw [if_neg he0]
      by_cases he1 : e = 1
      · rw [if_pos he1, he1, Int.tmod_eq_emod hb (le_of_lt hm)]
        norm_num
      · rw [if_neg he1]
        have hcast : e = ((e.toNat : Nat) : Int) := (Int.toNat_of_nonneg he).symm
        rw [hcast, modPowLoop_spec m hm e.toNat 1 (b.tmod m) (by norm_num) hm2
          (by rw [Int.tmod_eq_emod hb (le_of_lt hm)]; exact Int.emod_nonneg _ (by omega))]
        rw [one_mul, Int.tmod_eq_emod hb (le_of_lt hm)]
        show (b % m) ^ e.toNat ≡ b ^ e.toNat [ZMOD m]
        exact Int.ModEq.pow _ (Int.emod_emod_of_dvd _ dvd_rfl)

theorem modPow_nonneg (b e m : Int) (hb : 0 ≤ b) (he : 0 ≤ e) (hm : 0 < m) :
    0 ≤ modPow b e m := by
  rw [modPow_spec b e m hb he hm]
  exact Int.emod_nonneg _ (by omega)

theorem modPow_lt (b e m : Int) (hb : 0 ≤ b) (he : 0 ≤ e) (hm : 0 < m) :
    modPow b e m < m := by
  rw [modPow_spec b e m hb he hm]
  exact Int.emod_lt_of_pos _ hm

/-! ## Claim C1 : `modPowConstantTime` versus `modPow`

The ladder in `modPowConstantTime` iterates from string index 1 (skipping
the most significant exponent bit) but is initialised with `R0 = 1`,
`R1 = base`, the state that belongs *before* the leading bit is processed.
Consequently it computes `base ^ (exponent - 2 ^ (bitlength - 1)) mod
modulus` instead of `base ^ exponent mod modulus`, contradicting its own
documentation ("compute base^exponent mod modulus", "always perform the
same operations" as `modPow`).  Already at `exponent = 1` the two variants
disagree. -/

/-- C1: the constant-time variant does not agree with `modPow`; at the
failing input `base = 3`, `exponent = 1`, `modulus = 7` the fast variant
returns `3 = 3 ^ 1 mod 7` while the Montgomery-ladder variant returns `1`
(and at `exponent = 2` it returns `1` instead of `2`). -/
theorem C1_modPowConstantTime_failing_input :
    modPow 3 1 7 = 3 ∧ modPowConstantTime 3 1 7 = 1 ∧
    modPow 3 2 7 = 2 ∧ modPowConstantTime 3 2 7 = 1 := by
  refine ⟨?_, ?_, ?_, ?_⟩ <;>
    simp +decide [modPow, modPowLoop, modPowConstantTime, ctBits, bitsMSB,
      bitsMSBAux, ladderStep]

/-! ## Claim C3 : the known vector for `modPow` -/

/-- C3 counterexample: `modPow(3, 13, 7)` is not `6`. -/
theorem C3_modPow_vector_ne_six : modPow 3 13 7 ≠ 6 := by
  simp +decide [modPow, modPowLoop]

/-- C3 amended: `modPow(3, 13, 7) = 3`, in agreement with the worked
derivation `3^13 mod 7` in the doc comment of `modPow` and with
Fermat's little theorem (`3^13 = 3^(2*6+1) ≡ 3 (mod 7)`). -/
theorem C3_modPow_vector : modPow 3 13 7 = 3 := by
  simp +decide [modPow, modPowLoop]

/-! ## Correctness of `extendedGCD` and `modInverse` on nonnegative inputs -/

theorem extendedGCD_spec : ∀ (a b : Int), 0 ≤ a → 0 ≤ b →
    (extendedGCD a b).1 = (Int.gcd a b : Int) ∧
    a * (extendedGCD a b).2.1 + b * (extendedGCD a b).2.2 = (extendedGCD a b).1 := by
  intro a b
  induction a, b using extendedGCD.induct with
  | case1 a =>
    intro ha _
    have h0 : (0 : Int) = 0 := rfl
    rw [extendedGCD, if_pos h0]
    constructor
    · rw [Int.gcd_zero_right, Int.natAbs_of_nonneg ha]
    · ring
  | case2 a b hb ih =>
    intro ha hb0
    have hmod0 : 0 ≤ a.tmod b := Int.tmod_nonneg b ha
    obtain ⟨ihg, ihbez⟩ := ih hb0 hmod0
    rw [extendedGCD, if_neg hb]
    constructor
    · rw [ihg]
      congr 1
      show Nat.gcd b.natAbs (a.tmod b).natAbs = Nat.gcd a.natAbs b.natAbs
      rw [natAbs_tmod, Nat.gcd_comm a.natAbs b.natAbs, Nat.gcd_rec b.natAbs a.natAbs,
        Nat.gcd_comm]
    · have htd := Int.tmod_add_tdiv a b
      have : a * (extendedGCD b (a.tmod b)).2.2 +
          b * ((extendedGCD b (a.tmod b)).2.1 - a.tdiv b * (extendedGCD b (a.tmod b)).2.2) =
          b * (extendedGCD b (a.tmod b)).2.1 + (a.tmod b) * (extendedGCD b (a.tmod b)).2.2 := by
        have hx : a.tmod b = a - b * a.tdiv b := by omega
        rw [hx]; ring
      rw [this, ihbez, ihg]

theorem modInverse_none (a n : Int) (ha : 0 ≤ a) (hn : 0 < n)
    (hg : Int.gcd a n ≠ 1) : modInverse a n = none := by
  obtain ⟨hg1, _⟩ := extendedGCD_spec a n ha (le_of_lt hn)
  rw [modInverse]
  simp only [hg1]
  rw [if_pos (by exact_mod_cast hg)]

theorem modInverse_some (a n : Int) (ha : 0 ≤ a) (hn : 0 < n)
    (hg : Int.gcd a n = 1) :
    ∃ d, modInverse a n = some d ∧ 0 ≤ d ∧ d < n ∧ a * d ≡ 1 [ZMOD n] := by
  obtain ⟨hg1, hbez⟩ := extendedGCD_spec a n ha (le_of_lt hn)
  rw [modInverse]
  have hg1' : (extendedGCD a n).1 = 1 := by rw [hg1, hg]; norm_num
  simp only [hg1', ne_eq, not_true_eq_false, if_false, ite_not]
  refine ⟨_, rfl, ?_, ?_, ?_⟩
  · rw [tmod_fixup_eq_emod _ _ hn]
    exact Int.emod_nonneg _ (by omega)
  · rw [tmod_fixup_eq_emod _ _ hn]
    exact Int.emod_lt_of_pos _ hn
  · rw [tmod_fixup_eq_emod _ _ hn]
    have h1 : a * ((extendedGCD a n).2.1 % n) ≡ a * (extendedGCD a n).2.1 [ZMOD n] :=
      Int.ModEq.mul_left a (Int.emod_emod_of_dvd _ dvd_rfl)
    have h2 : a * (extendedGCD a n).2.1 ≡ 1 [ZMOD n] := by
      have : a * (extendedGCD a n).2.1 = 1 - n * (extendedGCD a n).2.2 := by
        rw [hg1'] at hbez
        omega
      rw [this]
      calc (1 : Int) - n * (extendedGCD a n).2.2
          ≡ 1 - 0 * (extendedGCD a n).2.2 [ZMOD n] :=
            Int.ModEq.sub_left _ (Int.ModEq.mul_right _ (Int.modEq_zero_iff_dvd.mpr dvd_rfl))
        _ = 1 := by ring
    exact h1.trans h2

/-! ## Claim C6 : `modInverse` -/

/-- C6 counterexample: the claim fails for negative `a` and for `n = 1`.
At `a = -3`, `n = 5` the gcd is 1 yet `modInverse` returns `null`, because
`extendedGCD` computes the triple `(-1, 2, 1)` whose leading entry `-1`
fails the `gcd !== 1n` test; and at `a = 5`, `n = 1` it returns `0`
although `(5 * 0) mod 1 = 0 ≠ 1`. -/
theorem C6_modInverse_counterexample :
    (Int.gcd (-3) 5 = 1 ∧ modInverse (-3) 5 = none) ∧
    (modInverse 5 1 = some 0 ∧ (5 * 0) % (1 : Int) ≠ 1) := by
  refine ⟨⟨by decide, ?_⟩, ?_, by decide⟩ <;> simp +decide [modInverse, extendedGCD]

/-- C6 amended: for every integer `a ≥ 0` and every modulus `n ≥ 2`,
`modInverse(a, n)` returns `null` exactly when `gcd(a, n) ≠ 1`, and
otherwise returns `d` with `0 ≤ d < n` and `(a * d) mod n = 1`. -/
theorem C6_modInverse_spec (a n : Int) (ha : 0 ≤ a) (hn : 2 ≤ n) :
    (modInverse a n = none ↔ Int.gcd a n ≠ 1) ∧
    (Int.gcd a n = 1 → ∃ d, modInverse a n = some d ∧ 0 ≤ d ∧ d < n ∧ (a * d) % n = 1) := by
  have hn0 : 0 < n := by omega
  constructor
  · constructor
    · intro hnone hg
      obtain ⟨d, hd, _⟩ := modInverse_some a n ha hn0 hg
      rw [hd] at hnone
      exact Option.some_ne_none d hnone
    · exact modInverse_none a n ha hn0
  · intro hg
    obtain ⟨d, hd, hd0, hdn, hmod⟩ := modInverse_some a n ha hn0 hg
    refine ⟨d, hd, hd0, hdn, ?_⟩
    have h1 : (a * d) % n = 1 % n := hmod
    rw [h1, Int.emod_eq_of_lt (by omega) (by omega)]

/-- C6 witness: the amended statement instantiated at `a = 3`, `n = 5`. -/
theorem C6_modInverse_spec_witness :
    (modInverse 3 5 = none ↔ Int.gcd 3 5 ≠ 1) ∧
    (Int.gcd 3 5 = 1 →
      ∃ d, modInverse 3 5 = some d ∧ 0 ≤ d ∧ d < 5 ∧ (3 * d) % 5 = 1) :=
  C6_modInverse_spec 3 5 (by norm_num) (by norm_num)

/-! ## rsa-core.js : `millerRabin` -/

/-- Factorisation loop of `millerRabin`: write the (positive, even) input
as `2 ^ r * d` with `d` odd, returning `(r, d)`.  The `0 < d` guard only
serves Lean's termination checker; the loop is reached with `d = n - 1 ≥ 4`
and halving an even positive number never produces 0, so the guard never
fires on reachable inputs. -/
def splitTwos (d : Nat) : Nat × Nat :=
  if d % 2 = 0 ∧ 0 < d then
    let r := splitTwos (d / 2)
    (r.1 + 1, r.2)
  else (0, d)
decreasing_by
  rename_i h
  exact Nat.div_lt_self h.2 one_lt_two

/-- Inner squaring loop of `millerRabin`: square `x` up to `count` times
looking for `n - 1`; returns `true` when the current witness passes. -/
def mrSquares (n x : Int) : Nat → Bool
  | 0 => false
  | count + 1 =>
    let x' := modPow x 2 n
    if x' = n - 1 then true else mrSquares n x' count

/-- Test of a single Miller-Rabin witness `a` against `n` with
`n - 1 = 2 ^ r * d`. -/
def mrWitnessCheck (n d : Int) (r : Nat) (a : Int) : Bool :=
  let x := modPow a d n
  if x = 1 ∨ x = n - 1 then true else mrSquares n x (r - 1)

/-- The witness loop of `millerRabin`: run `remaining` more rounds, the
next using witness index `i` of the witness stream `w` (which models the
values produced by `randomWitness`). -/
def mrLoop (n d : Int) (r : Nat) (w : Nat → Int) (i : Nat) : Nat → Bool
  | 0 => true
  | remaining + 1 =>
    if mrWitnessCheck n d r (w i) then mrLoop n d r w (i + 1) remaining
    else false

/-- Embedding of `millerRabin(n, rounds)` from `rsa-core.js`; the random
witnesses drawn by `randomWitness` are modelled by the oracle `w`, whose
`i`-th value is the witness of round `i`. -/
def millerRabin (n : Int) (rounds : Nat) (w : Nat → Int) : Bool :=
  if n ≤ 1 then false
  else if n ≤ 3 then true
  else if n.tmod 2 = 0 then false
  else
    let rd := splitTwos (n - 1).toNat
    mrLoop n (rd.2 : Int) rd.1 w 0 rounds

/-! ## Claim C9 : `millerRabin` on small and even inputs -/

/-- C9: for every number of rounds `≥ 1` and every stream of random
witnesses, `millerRabin` rejects every `n ≤ 1`, accepts `n = 2` and
`n = 3`, and rejects every even `n ≥ 4`. -/
theorem C9_millerRabin_small_inputs (rounds : Nat) (w : Nat → Int)
    (hrounds : 1 ≤ rounds) :
    (∀ n : Int, n ≤ 1 → millerRabin n rounds w = false) ∧
    millerRabin 2 rounds w = true ∧
    millerRabin 3 rounds w = true ∧
    (∀ n : Int, 4 ≤ n → Even n → millerRabin n rounds w = false) := by
  refine ⟨?_, ?_, ?_, ?_⟩
  · intro n hn
    rw [millerRabin, if_pos hn]
  · rw [millerRabin, if_neg (by norm_num), if_pos (by norm_num)]
  · rw [millerRabin, if_neg (by norm_num), if_pos (by norm_num)]
  · intro n hn heven
    have h2 : n.tmod 2 = 0 := by
      rw [Int.tmod_eq_emod (by omega) (by norm_num)]
      exact Int.even_iff.mp heven
    rw [millerRabin, if_neg (by omega), if_neg (by omega), if_pos h2]

/-- C9 witness: the statement instantiated at one round, the constant
witness stream 2, and the sample inputs 0, 2, 3, 4 and 100. -/
theorem C9_millerRabin_small_inputs_witness :
    millerRabin 0 1 (fun _ => 2) = false ∧
    millerRabin 2 1 (fun _ => 2) = true ∧
    millerRabin 3 1 (fun _ => 2) = true ∧
    millerRabin 4 1 (fun _ => 2) = false ∧
    millerRabin 100 1 (fun _ => 2) = false := by
  obtain ⟨h1, h2, h3, h4⟩ := C9_millerRabin_small_inputs 1 (fun _ => 2) (le_refl 1)
  exact ⟨h1 0 (by norm_num), h2, h3, h4 4 (by norm_num) (by decide),
    h4 100 (by norm_num) (by decide)⟩

/-! ## rsa-core.js : `encrypt` and `decrypt` -/

/-- The distinguishable throw sites of `encrypt` and `decrypt` in
`rsa-core.js`. -/
inductive RsaError where
  | messageTooLarge
  | messageNegative
  | invalidCiphertext
  | ciphertextNegative
deriving DecidableEq, Repr

/-- An RSA public key `{e, n}`. -/
structure RsaPublicKey where
  e : Int
  n : Int
deriving DecidableEq, Repr

/-- An RSA private key `{d, n}`. -/
structure RsaPrivateKey where
  d : Int
  n : Int
deriving DecidableEq, Repr

/-- Embedding of `encrypt(message, publicKey)` from `rsa-core.js`. -/
def encrypt (message : Int) (publicKey : RsaPublicKey) : Except RsaError Int :=
  if message ≥ publicKey.n then .error .messageTooLarge
  else if message < 0 then .error .messageNegative
  else .ok (modPow message publicKey.e publicKey.n)

/-- Embedding of `decrypt(ciphertext, privateKey)` from `rsa-core.js`. -/
def decrypt (ciphertext : Int) (privateKey : RsaPrivateKey) : Except RsaError Int :=
  if ciphertext ≥ privateKey.n then .error .invalidCiphertext
  else if ciphertext < 0 then .error .ciphertextNegative
  else .ok (modPow ciphertext privateKey.d privateKey.n)

/-! ## Claim C8 : boundary behaviour of `encrypt` -/

/-- C8 counterexample: for a negative message the code fails with the
distinct non-negativity error, not with `MessageTooLarge` as the claim
("fails with the MessageTooLarge error exactly when m < 0 or m ≥ n")
demands. -/
theorem C8_encrypt_negative_message :
    encrypt (-1) ⟨3, 5⟩ = .error RsaError.messageNegative ∧
    encrypt (-1) ⟨3, 5⟩ ≠ .error RsaError.messageTooLarge := by
  constructor <;> simp +decide [encrypt]

/-- C8 amended: `encrypt` fails with `MessageTooLarge` exactly when
`m ≥ n` (in particular when `m = n`), fails with the distinct
non-negativity error when `m < 0 < n - m`, and returns `modPow(m, e, n)`
when `0 ≤ m < n`. -/
theorem C8_encrypt_boundary (m : Int) (pk : RsaPublicKey) :
    (encrypt m pk = .error RsaError.messageTooLarge ↔ m ≥ pk.n) ∧
    (m < pk.n → m < 0 → encrypt m pk = .error RsaError.messageNegative) ∧
    (0 ≤ m → m < pk.n → encrypt m pk = .ok (modPow m pk.e pk.n)) := by
  refine ⟨⟨?_, ?_⟩, ?_, ?_⟩
  · intro h
    by_contra hlt
    rw [encrypt, if_neg hlt] at h
    split at h <;> simp_all
  · intro h
    rw [encrypt, if_pos h]
  · intro h1 h2
    rw [encrypt, if_neg (by omega), if_pos h2]
  · intro h1 h2
    rw [encrypt, if_neg (by omega), if_neg (by omega)]

/-- C8 witness: the amended statement instantiated at `m = 2`,
`pk = {e := 3, n := 5}`, including the boundary case `m = n = 5`. -/
theorem C8_encrypt_boundary_witness :
    (encrypt 5 ⟨3, 5⟩ = .error RsaError.messageTooLarge ∧
      encrypt 2 ⟨3, 5⟩ = .ok (modPow 2 3 5)) := by
  obtain ⟨h1, _, h3⟩ := C8_encrypt_boundary 5 ⟨3, 5⟩
  obtain ⟨_, _, h6⟩ := C8_encrypt_boundary 2 ⟨3, 5⟩
  exact ⟨h1.mpr (by norm_num), h6 (by norm_num) (by norm_num)⟩

/-! ## Claim C2 : RSA round trip -/

/-- Fermat step for one prime factor: `M ^ (1 + t * (p - 1)) ≡ M (mod p)`. -/
theorem pow_one_add_mul_totient_prime (p : Nat) (hp : p.Prime) (M t : Nat) :
    M ^ (1 + t * (p - 1)) ≡ M [MOD p] := by
  by_cases hdvd : p ∣ M
  · have h1 : M ≡ 0 [MOD p] := (Nat.modEq_zero_iff_dvd).mpr hdvd
    have h2 : M ^ (1 + t * (p - 1)) ≡ 0 [MOD p] := by
      have : p ∣ M ^ (1 + t * (p - 1)) := hdvd.trans (dvd_pow_self M (by omega))
      exact (Nat.modEq_zero_iff_dvd).mpr this
    exact h2.trans h1.symm
  · haveI : Fact p.Prime := ⟨hp⟩
    have hM : (M : ZMod p) ≠ 0 := by
      rw [Ne, ZMod.natCast_zmod_eq_zero_iff_dvd]
      exact hdvd
    have key : ((M : ZMod p)) ^ (1 + t * (p - 1)) = (M : ZMod p) := by
      rw [pow_add, pow_one, mul_comm t (p - 1), pow_mul,
        ZMod.pow_card_sub_one_eq_one hM, one_pow, mul_one]
    apply (ZMod.natCast_eq_natCast_iff (M ^ (1 + t * (p - 1))) M p).mp
    push_cast
    rw [key]

/-- Core RSA correctness over the naturals: for distinct primes `p`, `q`
and any `M < p * q`, raising to the power `1 + k * (p-1) * (q-1)` is the
identity modulo `p * q`. -/
theorem rsa_pow_identity (p q : Nat) (hp : p.Prime) (hq : q.Prime)
    (hpq : p ≠ q) (k M : Nat) (hM : M < p * q) :
    M ^ (1 + k * ((p - 1) * (q - 1))) % (p * q) = M := by
  have hcop : Nat.Coprime p q := (Nat.coprime_primes hp hq).mpr hpq
  have h1 : M ^ (1 + k * ((p - 1) * (q - 1))) ≡ M [MOD p] := by
    have := pow_one_add_mul_totient_prime p hp M (k * (q - 1))
    calc M ^ (1 + k * ((p - 1) * (q - 1)))
        = M ^ (1 + k * (q - 1) * (p - 1)) := by ring_nf
      _ ≡ M [MOD p] := this
  have h2 : M ^ (1 + k * ((p - 1) * (q - 1))) ≡ M [MOD q] := by
    have := pow_one_add_mul_totient_prime q hq M (k * (p - 1))
    calc M ^ (1 + k * ((p - 1) * (q - 1)))
        = M ^ (1 + k * (p - 1) * (q - 1)) := by ring_nf
      _ ≡ M [MOD q] := this
  have h3 : M ^ (1 + k * ((p - 1) * (q - 1))) ≡ M [MOD p * q] :=
    (Nat.modEq_and_modEq_iff_modEq_mul hcop).mp ⟨h1, h2⟩
  calc M ^ (1 + k * ((p - 1) * (q - 1))) % (p * q)
      = M % (p * q) := h3
    _ = M := Nat.mod_eq_of_lt hM

/-- C2: for every key pair satisfying the KeyPair invariant (`p`, `q`
distinct primes, `n = p * q`, `phi = (p-1) * (q-1)`, `(e * d) mod phi = 1`,
`e, d ≥ 0`) and every message `0 ≤ m < n`, encrypting with the public key
and then decrypting with the private key succeeds and returns `m`. -/
theorem C2_rsa_roundtrip (p q : Nat) (hp : p.Prime) (hq : q.Prime)
    (hpq : p ≠ q) (e d : Int) (he : 0 ≤ e) (hd : 0 ≤ d)
    (hed : (e * d) % (((p : Int) - 1) * ((q : Int) - 1)) = 1)
    (m : Int) (hm0 : 0 ≤ m) (hmn : m < (p : Int) * (q : Int)) :
    (encrypt m ⟨e, (p : Int) * (q : Int)⟩).bind
      (fun c => decrypt c ⟨d, (p : Int) * (q : Int)⟩) = .ok m := by
  have hp2 : 2 ≤ p := hp.two_le
  have hq2 : 2 ≤ q := hq.two_le
  have hn1 : (1 : Int) < (p : Int) * (q : Int) := by
    have : (2 : Int) ≤ (p : Int) := by exact_mod_cast hp2
    have : (2 : Int) ≤ (q : Int) := by exact_mod_cast hq2
    nlinarith
  have hn0 : (0 : Int) < (p : Int) * (q : Int) := by omega
  set n : Int := (p : Int) * (q : Int) with hn
  -- the encryption call succeeds
  rw [encrypt]
  dsimp only
  rw [if_neg (by omega), if_neg (by omega)]
  have hc0 : 0 ≤ modPow m e n := modPow_nonneg m e n hm0 he hn0
  have hcn : modPow m e n < n := modPow_lt m e n hm0 he hn0
  rw [Except.bind, decrypt]
  dsimp only
  rw [if_neg (by omega), if_neg (by omega)]
  -- both calls reduced to modular exponentiation
  rw [modPow_spec m e n hm0 he hn0,
    modPow_spec _ d n (Int.emod_nonneg _ (by omega)) hd hn0]
  congr 1
  -- pass to the exponent arithmetic
  have hpow : (m ^ e.toNat % n) ^ d.toNat % n = m ^ (e.toNat * d.toNat) % n := by
    have h1 : (m ^ e.toNat % n) ^ d.toNat ≡ (m ^ e.toNat) ^ d.toNat [ZMOD n] :=
      Int.ModEq.pow _ (Int.emod_emod_of_dvd _ dvd_rfl)
    have h2 : ((m ^ e.toNat) ^ d.toNat : Int) = m ^ (e.toNat * d.toNat) := by
      rw [← pow_mul]
    calc (m ^ e.toNat % n) ^ d.toNat % n
        = (m ^ e.toNat) ^ d.toNat % n := h1
      _ = m ^ (e.toNat * d.toNat) % n := by rw [h2]
  rw [hpow]
  -- extract the decomposition e*d = 1 + k * phi over the naturals
  set phiN : Nat := (p - 1) * (q - 1) with hphiN
  have hphiN2 : 1 ≤ phiN := by
    have : 1 ≤ p - 1 := by omega
    have : 1 ≤ q - 1 := by omega
    calc 1 = 1 * 1 := rfl
      _ ≤ (p - 1) * (q - 1) := Nat.mul_le_mul (by omega) (by omega)
  have hphicast : (((p : Int) - 1) * ((q : Int) - 1)) = ((phiN : Nat) : Int) := by
    rw [hphiN]
    push_cast [Nat.cast_sub (by omega : 1 ≤ p), Nat.cast_sub (by omega : 1 ≤ q)]
    ring
  have hedN : (e.toNat * d.toNat) % phiN = 1 := by
    have h1 : (e * d) % ((phiN : Nat) : Int) = 1 := by rw [← hphicast]; exact hed
    have h2 : e * d = ((e.toNat * d.toNat : Nat) : Int) := by
      push_cast [Int.toNat_of_nonneg he, Int.toNat_of_nonneg hd]
      ring
    rw [h2] at h1
    omega
  set ED : Nat := e.toNat * d.toNat with hED
  have hdecomp : ED = 1 + phiN * (ED / phiN) := by
    have := Nat.div_add_mod ED phiN
    omega
  -- reduce to the natural-number statement
  have hmN : m = ((m.toNat : Nat) : Int) := (Int.toNat_of_nonneg hm0).symm
  have hmlt : m.toNat < p * q := by
    have : ((p * q : Nat) : Int) = n := by push_cast; rfl
    omega
  rw [hmN]
  have hcastpow : ((m.toNat : Int)) ^ ED % n = ((m.toNat ^ ED % (p * q) : Nat) : Int) := by
    have : ((p * q : Nat) : Int) = n := by push_cast; rfl
    rw [← this]
    push_cast
    ring_nf
  rw [hcastpow, hdecomp, hphiN]
  rw [mul_comm ((p - 1) * (q - 1)) (ED / phiN)]
  rw [rsa_pow_identity p q hp hq hpq (ED / phiN) m.toNat hmlt]

/-- C2 witness: the round trip instantiated at the concrete key pair
`p = 3`, `q = 5`, `e = d = 3` (so `phi = 8`, `3 * 3 mod 8 = 1`) and
message `m = 2`. -/
theorem C2_rsa_roundtrip_witness :
    (encrypt 2 ⟨3, (3 : Nat) * (5 : Nat)⟩).bind
      (fun c => decrypt c ⟨3, (3 : Nat) * (5 : Nat)⟩) = .ok 2 :=
  C2_rsa_roundtrip 3 5 (by norm_num) (by norm_num) (by norm_num)
    3 3 (by norm_num) (by norm_num) (by norm_num) 2 (by norm_num) (by norm_num)

/-! ## ec-math-utils.js : field helpers and `modSqrt` -/

/-- The distinguishable throw sites of `ec-math-utils.js`. -/
inductive EcError where
  | divisionByZeroAdd
  | divisionByZeroDouble
  | negativeScalar
  | sqrtNotImplemented
deriving DecidableEq, Repr

/-- Embedding of `modSqrt(a, p)` from `ec-math-utils.js`.  The value
`none` models the `null` ("no root") return; the `p ≡ 1 (mod 4)` branch
throws in the source and is modelled by `Except.error`. -/
def modSqrt (a p : Int) : Except EcError (Option Int) :=
  if a = 0 then .ok (some 0)
  else
    let a1 := a.tmod p
    let a2 := if a1 < 0 then a1 + p else a1
    let exponent := (p - 1).tdiv 2
    let eulerCriterion := modPow a2 exponent p
    if eulerCriterion ≠ 1 then .ok none
    else if p.tmod 4 = 3 then .ok (some (modPow a2 ((p + 1).tdiv 4) p))
    else .error .sqrtNotImplemented

/-- Lowering of a `ZMod` cast equation to an Euclidean remainder: if two
integers agree in `ZMod p` and the second lies in `[0, p)`, then the first
reduces to the second. -/
theorem emod_eq_of_zmod_cast (p : Nat) (x v : Int) (hv : 0 ≤ v)
    (hvp : v < (p : Int)) (h : (x : ZMod p) = (v : ZMod p)) :
    x % (p : Int) = v := by
  have h1 : x ≡ v [ZMOD (p : Int)] := by
    have := (ZMod.intCast_eq_intCast_iff x v p).mp h
    exact this
  have h2 : x % (p : Int) = v % (p : Int) := h1
  rw [h2, Int.emod_eq_of_lt hv hvp]

/-- Casting an Euclidean remainder into `ZMod p` is the same as casting
the dividend. -/
theorem intCast_emod_zmod (p : Nat) (x : Int) :
    ((x % (p : Int) : Int) : ZMod p) = (x : ZMod p) := by
  apply (ZMod.intCast_eq_intCast_iff _ _ _).mpr
  show (x % (p : Int)) % (p : Int) = x % (p : Int)
  exact Int.emod_emod_of_dvd x dvd_rfl

/-! ## Claim C7 : `modSqrt` for `p ≡ 3 (mod 4)` -/

/-- C7: for a prime `p ≡ 3 (mod 4)` and `0 ≤ a < p`, `modSqrt(a, p)`
returns a root `r ∈ [0, p)` with `r² mod p = a` whenever `a` is zero or a
quadratic residue, and returns "no root" whenever `a` is a quadratic
non-residue. -/
theorem C7_modSqrt_spec (p : Nat) (hp : p.Prime) (hp4 : p % 4 = 3)
    (a : Int) (ha0 : 0 ≤ a) (hap : a < (p : Int)) :
    ((a = 0 ∨ IsSquare (a : ZMod p)) →
      ∃ r : Int, modSqrt a (p : Int) = .ok (some r) ∧ 0 ≤ r ∧ r < (p : Int) ∧
        (r * r) % (p : Int) = a) ∧
    (¬ IsSquare (a : ZMod p) → modSqrt a (p : Int) = .ok none) := by
  haveI : Fact p.Prime := ⟨hp⟩
  have hp3 : 3 ≤ p := by
    rcases hp.two_le.lt_or_eq with h | h
    · omega
    · omega
  have hpI : (0 : Int) < (p : Int) := by exact_mod_cast Nat.pos_of_ne_zero (by omega)
  by_cases ha : a = 0
  · subst ha
    constructor
    · intro _
      refine ⟨0, ?_, le_refl 0, hpI, ?_⟩
      · rw [modSqrt, if_pos rfl]
      · simpa using Int.emod_emod_of_dvd 0 dvd_rfl
    · intro hns
      exact absurd ⟨0, by push_cast; ring⟩ hns
  · -- nonzero input: the source normalises `a` into range (a no-op here)
    have hapos : 0 < a := by omega
    have hcast_ne : (a : ZMod p) ≠ 0 := by
      rw [Ne, ZMod.intCast_zmod_eq_zero_iff_dvd]
      intro hdvd
      have := Int.le_of_dvd hapos hdvd
      omega
    have ha1 : a.tmod (p : Int) = a := by
      rw [Int.tmod_eq_emod ha0 (le_of_lt hpI), Int.emod_eq_of_lt ha0 hap]
    have hexp : ((p : Int) - 1).tdiv 2 = (((p - 1) / 2 : Nat) : Int) := by
      rw [Int.tdiv_eq_ediv (by omega) (by omega)]
      omega
    have hexp4 : ((p : Int) + 1).tdiv 4 = (((p + 1) / 4 : Nat) : Int) := by
      rw [Int.tdiv_eq_ediv (by omega) (by omega)]
      omega
    have heuler_val : modPow a (((p - 1) / 2 : Nat) : Int) (p : Int) =
        a ^ ((p - 1) / 2) % (p : Int) := by
      rw [modPow_spec _ _ _ ha0 (by positivity) hpI]
      congr 1
    have hhalf : p / 2 = (p - 1) / 2 := by omega
    constructor
    · rintro (h0 | hsq)
      · exact absurd h0 ha
      · -- Euler's criterion holds, so the closed-form branch is taken
        have hcrit : (a : ZMod p) ^ (p / 2) = 1 :=
          (ZMod.euler_criterion p hcast_ne).mp hsq
        have hcrit' : (a : ZMod p) ^ ((p - 1) / 2) = 1 := by rw [← hhalf]; exact hcrit
        have heuler1 : modPow a (((p - 1) / 2 : Nat) : Int) (p : Int) = 1 := by
          rw [heuler_val]
          apply emod_eq_of_zmod_cast p _ 1 (by norm_num) (by exact_mod_cast hp3.trans_lt' (by norm_num))
          push_cast
          rw [hcrit']
        have hptmod : (p : Int).tmod 4 = 3 := by
          rw [Int.tmod_eq_emod (by omega) (by norm_num)]
          omega
        rw [modSqrt, if_neg ha]
        simp only [ha1, if_neg (by omega : ¬ a < 0), hexp, heuler1, ne_eq,
          not_true_eq_false, if_false, ite_not, hptmod, if_pos rfl, hexp4]
        refine ⟨modPow a (((p + 1) / 4 : Nat) : Int) (p : Int), by rw [if_pos trivial],
          modPow_nonneg _ _ _ ha0 (by positivity) hpI,
          modPow_lt _ _ _ ha0 (by positivity) hpI, ?_⟩
        have hr : modPow a (((p + 1) / 4 : Nat) : Int) (p : Int) =
            a ^ ((p + 1) / 4) % (p : Int) := by
          rw [modPow_spec _ _ _ ha0 (by positivity) hpI]
          congr 1
        rw [hr]
        apply emod_eq_of_zmod_cast p _ a ha0 hap
        push_cast [intCast_emod_zmod]
        have hexp_sum : (p + 1) / 4 + (p + 1) / 4 = (p - 1) / 2 + 1 := by omega
        rw [← pow_add, hexp_sum, pow_succ, hcrit', one_mul]
    · intro hns
      have hcrit_ne : (a : ZMod p) ^ (p / 2) ≠ 1 := fun h =>
        hns ((ZMod.euler_criterion p hcast_ne).mpr h)
      have heuler_ne : modPow a (((p - 1) / 2 : Nat) : Int) (p : Int) ≠ 1 := by
        rw [heuler_val]
        intro h
        apply hcrit_ne
        rw [hhalf]
        have h2 : ((a ^ ((p - 1) / 2) % (p : Int) : Int) : ZMod p) = ((1 : Int) : ZMod p) := by
          rw [h]
        rw [intCast_emod_zmod] at h2
        push_cast at h2
        exact h2
      rw [modSqrt, if_neg ha]
      simp only [ha1, if_neg (by omega : ¬ a < 0), hexp]
      rw [if_pos heuler_ne]

/-- C7 witness: the statement instantiated at `p = 7` with the quadratic
residue `a = 2` (root `4`, since `4 * 4 = 16 ≡ 2 (mod 7)`) and the
non-residue `a = 3`. -/
theorem C7_modSqrt_spec_witness :
    (∃ r : Int, modSqrt 2 7 = .ok (some r) ∧ 0 ≤ r ∧ r < 7 ∧ (r * r) % 7 = 2) ∧
    modSqrt 3 7 = .ok none := by
  have hsq : IsSquare ((2 : Int) : ZMod 7) := ⟨3, by decide⟩
  have hnsq : ¬ IsSquare ((3 : Int) : ZMod 7) := by
    rintro ⟨r, hr⟩
    revert hr
    revert r
    decide
  obtain ⟨h1, _⟩ := C7_modSqrt_spec 7 (by norm_num) (by norm_num) 2 (by norm_num)
    (by norm_num)
  obtain ⟨_, h2⟩ := C7_modSqrt_spec 7 (by norm_num) (by norm_num) 3 (by norm_num)
    (by norm_num)
  have h1' := h1 (Or.inr hsq)
  have h2' := h2 hnsq
  exact ⟨by exact_mod_cast h1', by exact_mod_cast h2'⟩

/-! ## Claim C10 : the RSA string codec -/

theorem stringToBigInt_foldl_ge (s : List Nat) : ∀ (acc : Int), 0 ≤ acc →
    acc ≤ s.foldl (fun (result : Int) (c : Nat) => result * 256 + (c : Int)) acc := by
  induction s with
  | nil =>
    intro acc _
    exact le_refl acc
  | cons c t ih =>
    intro acc hacc
    have h1 : acc ≤ acc * 256 + (c : Int) := by
      have : (0 : Int) ≤ (c : Int) := by positivity
      nlinarith
    calc acc ≤ acc * 256 + (c : Int) := h1
      _ ≤ t.foldl (fun (result : Int) (c : Nat) => result * 256 + (c : Int)) (acc * 256 + (c : Int)) :=
          ih _ (by omega)

theorem stringToBigInt_nonneg (s : List Nat) : 0 ≤ stringToBigInt s :=
  stringToBigInt_foldl_ge s 0 (le_refl 0)

theorem stringToBigInt_cons_ge (c : Nat) (t : List Nat) :
    (c : Int) ≤ stringToBigInt (c :: t) := by
  have h1 : stringToBigInt (c :: t) =
      t.foldl (fun (result : Int) (x : Nat) => result * 256 + (x : Int)) (c : Int) := by
    rw [stringToBigInt]
    simp [List.foldl]
  rw [h1]
  exact stringToBigInt_foldl_ge t (c : Int) (by positivity)

theorem stringToBigInt_append_singleton (s : List Nat) (d : Nat) :
    stringToBigInt (s ++ [d]) = stringToBigInt s * 256 + (d : Int) := by
  rw [stringToBigInt, stringToBigInt, List.foldl_append]
  simp [List.foldl]

theorem stringToBigInt_foldl_lt (s : List Nat) (hs : ∀ x ∈ s, x < 256) :
    ∀ (acc : Int), 0 ≤ acc →
    s.foldl (fun (result : Int) (c : Nat) => result * 256 + (c : Int)) acc < (acc + 1) * 256 ^ s.length := by
  induction s with
  | nil =>
    intro acc hacc
    simp
  | cons c t ih =>
    intro acc hacc
    have hc : c < 256 := hs c (List.mem_cons_self c t)
    have ht : ∀ x ∈ t, x < 256 := fun x hx => hs x (List.mem_cons_of_mem c hx)
    have h1 := ih ht (acc * 256 + (c : Int)) (by positivity)
    have h2 : (acc * 256 + (c : Int) + 1) ≤ (acc + 1) * 256 := by
      have : (c : Int) < 256 := by exact_mod_cast hc
      nlinarith
    calc (c :: t).foldl (fun (result : Int) (c : Nat) => result * 256 + (c : Int)) acc
        = t.foldl (fun (result : Int) (c : Nat) => result * 256 + (c : Int)) (acc * 256 + (c : Int)) := by
          simp [List.foldl]
      _ < (acc * 256 + (c : Int) + 1) * 256 ^ t.length := h1
      _ ≤ ((acc + 1) * 256) * 256 ^ t.length := by
          have h3 : (0 : Int) < 256 ^ t.length := by positivity
          exact mul_le_mul_of_nonneg_right h2 (le_of_lt h3)
      _ = (acc + 1) * 256 ^ (c :: t).length := by
          rw [List.length_cons, pow_succ]
          ring

theorem stringToBigInt_lt (s : List Nat) (hs : ∀ x ∈ s, x < 256) :
    stringToBigInt s < 256 ^ s.length := by
  have := stringToBigInt_foldl_lt s hs 0 (le_refl 0)
  rw [stringToBigInt]
  omega

/-- Core of the C10 round trip: extracting the base-256 digits of the
value of a leading-nonzero, all-byte string recovers the string in front
of any accumulator. -/
theorem bigIntToStringLoop_digits (c : Nat) (hc0 : c ≠ 0) (hc : c < 256) :
    ∀ (t : List Nat), (∀ x ∈ t, x < 256) → ∀ (acc : List Nat),
    bigIntToStringLoop (stringToBigInt (c :: t)) acc = (c :: t) ++ acc := by
  intro t
  induction t using List.reverseRecOn with
  | nil =>
    intro _ acc
    have hval : stringToBigInt [c] = (c : Int) := by
      rw [stringToBigInt]
      simp [List.foldl]
    rw [hval, bigIntToStringLoop, if_pos (by exact_mod_cast Nat.pos_of_ne_zero hc0)]
    have htm : ((c : Int)).tmod 256 = (c : Int) := by
      rw [Int.tmod_eq_emod (by positivity) (by norm_num)]
      rw [Int.emod_eq_of_lt (by positivity) (by exact_mod_cast hc)]
    have htd : ((c : Int)).tdiv 256 = 0 := by
      rw [Int.tdiv_eq_ediv (by positivity) (by norm_num)]
      omega
    rw [htm, htd, bigIntToStringLoop]
    norm_num
  | append_singleton t' d ih =>
    intro hlt acc
    have hd : d < 256 := hlt d (by simp)
    have ht' : ∀ x ∈ t', x < 256 := fun x hx => hlt x (by simp [hx])
    have hval : stringToBigInt (c :: (t' ++ [d])) =
        stringToBigInt (c :: t') * 256 + (d : Int) := by
      rw [show c :: (t' ++ [d]) = (c :: t') ++ [d] by simp,
        stringToBigInt_append_singleton]
    have hv1 : (1 : Int) ≤ stringToBigInt (c :: t') := by
      have := stringToBigInt_cons_ge c t'
      have : (1 : Int) ≤ (c : Int) := by exact_mod_cast Nat.pos_of_ne_zero hc0
      omega
    rw [hval, bigIntToStringLoop, if_pos (by nlinarith)]
    have htm : (stringToBigInt (c :: t') * 256 + (d : Int)).tmod 256 = (d : Int) := by
      rw [Int.tmod_eq_emod (by positivity) (by norm_num)]
      omega
    have htd : (stringToBigInt (c :: t') * 256 + (d : Int)).tdiv 256 =
        stringToBigInt (c :: t') := by
      rw [Int.tdiv_eq_ediv (by positivity) (by norm_num)]
      omega
    rw [htm, htd]
    have hdn : ((d : Int)).toNat = d := by simp
    rw [hdn, ih ht' (d :: acc)]
    simp

theorem bigIntToStringLoop_all_lt : ∀ (v : Int) (acc : List Nat),
    (∀ x ∈ acc, x < 256) → ∀ x ∈ bigIntToStringLoop v acc, x < 256 := by
  intro v acc
  induction v, acc using bigIntToStringLoop.induct with
  | case1 v acc hpos ih =>
    intro hacc
    rw [bigIntToStringLoop, if_pos hpos]
    apply ih
    intro x hx
    rcases List.mem_cons.mp hx with h | h
    · subst h
      have h1 : v.tmod 256 < 256 := by
        have := tmod_lt_natAbs v (show (256 : Int) ≠ 0 by norm_num)
        omega
      have h2 : 0 ≤ v.tmod 256 := Int.tmod_nonneg 256 (by omega)
      omega
    · exact hacc x h
  | case2 v acc hpos =>
    intro hacc
    rw [bigIntToStringLoop, if_neg hpos]
    exact hacc

theorem bigIntToString_all_lt (v : Int) : ∀ x ∈ bigIntToString v, x < 256 := by
  rw [bigIntToString]
  split
  · intro x hx
    simp only [List.mem_singleton] at hx
    omega
  · exact bigIntToStringLoop_all_lt v [] (by simp)

theorem bigIntToStringLoop_length : ∀ (k : Nat) (v : Int) (acc : List Nat),
    0 ≤ v → v < 256 ^ k →
    (bigIntToStringLoop v acc).length ≤ k + acc.length := by
  intro k
  induction k with
  | zero =>
    intro v acc hv hvk
    have hv0 : v = 0 := by
      simp only [pow_zero] at hvk
      omega
    rw [hv0, bigIntToStringLoop, if_neg (by omega)]
    simp
  | succ k ih =>
    intro v acc hv hvk
    by_cases hpos : 0 < v
    · rw [bigIntToStringLoop, if_pos hpos]
      have htd : v.tdiv 256 = v / 256 := Int.tdiv_eq_ediv (by omega) (by norm_num)
      have hlt : v.tdiv 256 < 256 ^ k := by
        rw [htd]
        have h2 : v / 256 < 256 ^ k ↔ v < 256 ^ k * 256 :=
          Int.ediv_lt_iff_lt_mul (by norm_num)
        rw [h2]
        calc v < 256 ^ (k + 1) := hvk
          _ = 256 ^ k * 256 := by rw [pow_succ]
      have hnn : 0 ≤ v.tdiv 256 := by rw [htd]; positivity
      calc (bigIntToStringLoop (v.tdiv 256) ((v.tmod 256).toNat :: acc)).length
          ≤ k + ((v.tmod 256).toNat :: acc).length := ih _ _ hnn hlt
        _ = k + 1 + acc.length := by simp [List.length_cons]; omega
    · rw [bigIntToStringLoop, if_neg hpos]
      omega

/-- C10 counterexample: the single-NUL string round-trips, because
`stringToBigInt("\0") = 0` and `bigIntToString(0)` is defined to be the
one-character string `"\0"`; so the claim that the round trip "does not
hold for strings with leading NUL characters" fails at `"\0"`. -/
theorem C10_single_nul_roundtrips : bigIntToString (stringToBigInt [0]) = [0] := by
  have h1 : stringToBigInt [0] = 0 := by
    rw [stringToBigInt]
    simp [List.foldl]
  rw [h1, bigIntToString, if_pos rfl]

/-- C10 amended: the codec round-trips on every nonempty string whose code
units are all below 256 and whose first code unit is nonzero; the round
trip fails for every string containing a code unit `≥ 256` and for every
string of length at least two that starts with a NUL; but the one-character
string `"\0"` itself round-trips (`bigIntToString(0) = "\0"`). -/
theorem C10_codec_roundtrip :
    (∀ (c : Nat) (t : List Nat), c ≠ 0 → c < 256 → (∀ x ∈ t, x < 256) →
      bigIntToString (stringToBigInt (c :: t)) = c :: t) ∧
    (∀ (s : List Nat) (x : Nat), x ∈ s → 256 ≤ x →
      bigIntToString (stringToBigInt s) ≠ s) ∧
    (∀ (t : List Nat), t ≠ [] →
      bigIntToString (stringToBigInt (0 :: t)) ≠ 0 :: t) ∧
    bigIntToString (stringToBigInt [0]) = [0] := by
  refine ⟨?_, ?_, ?_, ?_⟩
  · intro c t hc0 hc ht
    have hv1 : (1 : Int) ≤ stringToBigInt (c :: t) := by
      have h1 := stringToBigInt_cons_ge c t
      have h2 : (1 : Int) ≤ (c : Int) := by exact_mod_cast Nat.pos_of_ne_zero hc0
      omega
    rw [bigIntToString, if_neg (by omega)]
    have := bigIntToStringLoop_digits c hc0 hc t ht []
    rw [this]
    simp
  · intro s x hxs hx256 heq
    have hxs' : x ∈ bigIntToString (stringToBigInt s) := by rw [heq]; exact hxs
    have := bigIntToString_all_lt (stringToBigInt s) x hxs'
    omega
  · intro t ht heq
    have hlen : (bigIntToString (stringToBigInt (0 :: t))).length < (0 :: t).length := by
      have hval : stringToBigInt (0 :: t) = stringToBigInt t := by
        rw [stringToBigInt, stringToBigInt]
        simp [List.foldl]
      by_cases hz : stringToBigInt (0 :: t) = 0
      · rw [bigIntToString, if_pos hz]
        have : 1 ≤ t.length := by
          cases t with
          | nil => exact absurd rfl ht
          | cons a t' => simp
        simp only [List.length_singleton, List.length_cons, List.length_nil]
        omega
      · rw [bigIntToString, if_neg hz, hval]
        by_cases hbound : ∀ x ∈ t, x < 256
        · have h1 := bigIntToStringLoop_length t.length (stringToBigInt t) []
            (stringToBigInt_nonneg t) (stringToBigInt_lt t hbound)
          simp only [List.length_nil, List.length_cons] at h1 ⊢
          omega
        · -- a code unit `≥ 256` also forces a mismatch, via the digit bound
          push_neg at hbound
          obtain ⟨x, hxt, hx⟩ := hbound
          exfalso
          have hxmem : x ∈ bigIntToString (stringToBigInt (0 :: t)) := by
            rw [heq]
            exact List.mem_cons_of_mem 0 hxt
          have hxlt := bigIntToString_all_lt (stringToBigInt (0 :: t)) x hxmem
          omega
    rw [heq] at hlen
    omega
  · have h1 : stringToBigInt [0] = 0 := by
      rw [stringToBigInt]
      simp [List.foldl]
    rw [h1, bigIntToString, if_pos rfl]

/-- C10 witness: the amended statement instantiated at the string `"Hi"`
(`[72, 105]`, value `18537`), a string containing the out-of-range code
unit `256`, and the two-character string `"\0A"`. -/
theorem C10_codec_roundtrip_witness :
    bigIntToString (stringToBigInt [72, 105]) = [72, 105] ∧
    bigIntToString (stringToBigInt [256]) ≠ [256] ∧
    bigIntToString (stringToBigInt [0, 65]) ≠ [0, 65] := by
  obtain ⟨h1, h2, h3, _⟩ := C10_codec_roundtrip
  exact ⟨h1 72 [105] (by norm_num) (by norm_num) (by simp),
    h2 [256] 256 (by simp) (le_refl 256),
    h3 [65] (by simp)⟩

/-! ## ec-math-utils.js : curve parameters, points, and point arithmetic -/

/-- Curve parameters `{a, b, p}` of `ec-math-utils.js`. -/
structure CurveParams where
  a : Int
  b : Int
  p : Int
deriving DecidableEq, Repr

/-- A `Point` object of `ec-math-utils.js`: affine coordinates, the
infinity flag, and the curve the point is bound to. -/
structure EPoint where
  x : Int
  y : Int
  isInfinity : Bool
  curve : CurveParams
deriving DecidableEq, Repr

/-- Embedding of `Point.infinity(curve)`: the identity element, created
with coordinates `(0, 0)` and the infinity flag set. -/
def infinityPoint (curve : CurveParams) : EPoint :=
  { x := 0, y := 0, isInfinity := true, curve := curve }

/-- Embedding of `modAdd(a, b, p)`. -/
def modAdd (a b p : Int) : Int := (a + b).tmod p

/-- Embedding of `modSub(a, b, p)` (normalises a negative remainder). -/
def modSub (a b p : Int) : Int :=
  let result := (a - b).tmod p
  if result < 0 then result + p else result

/-- Embedding of `modMul(a, b, p)`. -/
def modMul (a b p : Int) : Int := (a * b).tmod p

/-- Embedding of `modInv(a, p)`, which delegates to `modInverse`. -/
def modInv (a p : Int) : Option Int := modInverse a p

/-- Embedding of `isOnCurve(P)`: check `y² ≡ x³ + ax + b (mod p)` with the
normalised arithmetic of the source. -/
def isOnCurve (P : EPoint) : Bool :=
  if P.isInfinity then true
  else
    let lhs := modMul P.y P.y P.curve.p
    let x2 := modMul P.x P.x P.curve.p
    let x3 := modMul x2 P.x P.curve.p
    let ax := modMul P.curve.a P.x P.curve.p
    let rhs := modAdd (modAdd x3 ax P.curve.p) P.curve.b P.curve.p
    lhs == rhs

/-- Embedding of `validateCurveParameters(curve)`:
`4a³ + 27b² ≠ 0 (mod p)`. -/
def validateCurveParameters (curve : CurveParams) : Bool :=
  let a2 := modMul curve.a curve.a curve.p
  let a3 := modMul a2 curve.a curve.p
  let fourA3 := modMul 4 a3 curve.p
  let b2 := modMul curve.b curve.b curve.p
  let twentySevenB2 := modMul 27 b2 curve.p
  let discriminant := modAdd fourA3 twentySevenB2 curve.p
  discriminant != 0

/-- Embedding of `pointNegate(P)`. -/
def pointNegate (P : EPoint) : EPoint :=
  if P.isInfinity then infinityPoint P.curve
  else { P with y := if P.y = 0 then 0 else P.curve.p - P.y }

/-- Embedding of `pointDouble(P)`; the unreachable modular-inverse failure
is the `DivisionByZero` throw of the source. -/
def pointDouble (P : EPoint) : Except EcError EPoint :=
  if P.isInfinity then .ok (infinityPoint P.curve)
  else if P.y = 0 then .ok (infinityPoint P.curve)
  else
    let a := P.curve.a
    let p := P.curve.p
    let x2 := modMul P.x P.x p
    let numerator := modAdd (modMul 3 x2 p) a p
    let denominator := modMul 2 P.y p
    match modInv denominator p with
    | none => .error .divisionByZeroDouble
    | some denominatorInv =>
      let lambda := modMul numerator denominatorInv p
      let lambda2 := modMul lambda lambda p
      let x3 := modSub lambda2 (modMul 2 P.x p) p
      let y3 := modSub (modMul lambda (modSub P.x x3 p) p) P.y p
      .ok { x := x3, y := y3, isInfinity := false, curve := P.curve }

/-- Embedding of `pointAdd(P, Q)`; the parameters of `P.curve` drive the
arithmetic, exactly as in the source. -/
def pointAdd (P Q : EPoint) : Except EcError EPoint :=
  if P.isInfinity then .ok Q
  else if Q.isInfinity then .ok P
  else if P.x = Q.x ∧ P.y ≠ Q.y then .ok (infinityPoint P.curve)
  else if P.x = Q.x ∧ P.y = Q.y then pointDouble P
  else
    let p := P.curve.p
    let numerator := modSub Q.y P.y p
    let denominator := modSub Q.x P.x p
    match modInv denominator p with
    | none => .error .divisionByZeroAdd
    | some denominatorInv =>
      let lambda := modMul numerator denominatorInv p
      let lambda2 := modMul lambda lambda p
      let x3 := modSub (modSub lambda2 P.x p) Q.x p
      let y3 := modSub (modMul lambda (modSub P.x x3 p) p) P.y p
      .ok { x := x3, y := y3, isInfinity := false, curve := P.curve }

/-- The `while` loop of `scalarMultiply`: double-and-add over the binary
expansion of the scalar, low bit first. -/
def daLoop (result temp : EPoint) (scalar : Int) : Except EcError EPoint :=
  if 0 < scalar then do
    let r ← if scalar.tmod 2 = 1 then pointAdd result temp else .ok result
    let t ← pointDouble temp
    daLoop r t (scalar.tdiv 2)
  else .ok result
termination_by scalar.toNat
decreasing_by
  rename_i h
  have h1 : scalar.tdiv 2 = scalar / 2 := Int.tdiv_eq_ediv (by omega) (by omega)
  omega

/-- Embedding of `scalarMultiply(k, P)` from `ec-math-utils.js`. -/
def scalarMultiply (k : Int) (P : EPoint) : Except EcError EPoint :=
  if k = 0 then .ok (infinityPoint P.curve)
  else if k = 1 then .ok P
  else if k < 0 then .error .negativeScalar
  else daLoop (infinityPoint P.curve) P k

/-- The bit loop of `scalarMultiplySecure`, processing the remaining
`count` bit positions `count - 1, …, 0` of `k`; bit `i` is
`(k >> i) & 1`, i.e. `(k / 2^i) mod 2` in two's complement. -/
def ladderLoop (k : Int) : Nat → EPoint → EPoint → Except EcError (EPoint × EPoint)
  | 0, R0, R1 => .ok (R0, R1)
  | count + 1, R0, R1 =>
    if (k / 2 ^ count) % 2 = 0 then do
      let r1 ← pointAdd R0 R1
      let r0 ← pointDouble R0
      ladderLoop k count r0 r1
    else do
      let r0 ← pointAdd R0 R1
      let r1 ← pointDouble R1
      ladderLoop k count r0 r1

/-- Length of `k.toString(2)` in JavaScript: the binary digit count of the
magnitude, plus one for the sign character when `k` is negative.  (The
`k = 0` case never reaches the length computation in the source.) -/
def jsBinLen (k : Int) : Nat :=
  if k < 0 then bitLen k.natAbs + 1 else bitLen k.natAbs

/-- Embedding of `scalarMultiplySecure(k, P)` from `ec-math-utils.js`:
a Montgomery ladder over all bit positions `bitLength - 1, …, 0` where
`bitLength = k.toString(2).length`, initialised with `R0 = ∞`, `R1 = P`,
returning the final `R0`. -/
def scalarMultiplySecure (k : Int) (P : EPoint) : Except EcError EPoint :=
  if k = 0 then .ok (infinityPoint P.curve)
  else if k = 1 then .ok P
  else do
    let R ← ladderLoop k (jsBinLen k) (infinityPoint P.curve) P
    .ok R.1

/-! ## Claim C5 counterexample

On the curve `{a = 0, b = -1, p = 13}` (which passes
`validateCurveParameters`, `p` an odd prime) the point `P = (7, 2)` lies
on the curve and is accepted by `isOnCurve`, but `pointAdd(P, P)` lands on
`(0, 5)`, for which the coded right-hand side
`((x³ + ax mod p) + b) mod p = (0 + (-1)) mod 13 = -1` is negative (the
truncated remainder keeps the sign of `b`), so `isOnCurve` rejects the
sum.  The claim as stated, for arbitrary curve coefficients, therefore
fails; nonnegative coefficients rule this out. -/

/-- C5 counterexample: a validated curve with a negative coefficient on
which `pointAdd` maps two accepted points to a rejected one. -/
theorem C5_pointAdd_counterexample :
    validateCurveParameters ⟨0, -1, 13⟩ = true ∧
    isOnCurve ⟨7, 2, false, ⟨0, -1, 13⟩⟩ = true ∧
    pointAdd ⟨7, 2, false, ⟨0, -1, 13⟩⟩ ⟨7, 2, false, ⟨0, -1, 13⟩⟩ =
      .ok ⟨0, 5, false, ⟨0, -1, 13⟩⟩ ∧
    isOnCurve ⟨0, 5, false, ⟨0, -1, 13⟩⟩ = false := by
  refine ⟨by decide, by decide, ?_, by decide⟩
  simp +decide [pointAdd, pointDouble, modInv, modInverse, extendedGCD, modMul,
    modSub, modAdd]

/-! ## Claim C4 counterexample

For a negative scalar, `scalarMultiply` throws the negative-scalar error
but `scalarMultiplySecure` has no sign check: it iterates over
`k.toString(2).length` bit positions of the two's-complement value.  For
`k = -2` the string is `"-10"` (length 3) and the extracted bits are
`1, 1, 0`, so the ladder happily returns `6·P`. -/

/-- C4 counterexample: on the curve `{a = 0, b = 7, p = 23}` with
`P = (1, 10)`, `scalarMultiply(-2, P)` errors while
`scalarMultiplySecure(-2, P)` returns the point `6P = (15, 1)` — the two
variants do not exhibit the same error behaviour for negative scalars. -/
theorem C4_negative_scalar_counterexample :
    scalarMultiply (-2) ⟨1, 10, false, ⟨0, 7, 23⟩⟩ = .error .negativeScalar ∧
    scalarMultiplySecure (-2) ⟨1, 10, false, ⟨0, 7, 23⟩⟩ =
      .ok ⟨15, 1, false, ⟨0, 7, 23⟩⟩ := by
  constructor
  · simp +decide [scalarMultiply]
  · have hlen : jsBinLen (-2) = 3 := by simp +decide [jsBinLen, bitLen]
    have ha1 : pointAdd (infinityPoint ⟨0, 7, 23⟩) ⟨1, 10, false, ⟨0, 7, 23⟩⟩ =
        .ok ⟨1, 10, false, ⟨0, 7, 23⟩⟩ := by
      simp +decide [pointAdd, infinityPoint]
    have hd1 : pointDouble ⟨1, 10, false, (⟨0, 7, 23⟩ : CurveParams)⟩ =
        .ok ⟨22, 11, false, ⟨0, 7, 23⟩⟩ := by
      simp +decide [pointDouble, modInv, modInverse, extendedGCD, modMul, modSub, modAdd]
    have ha2 : pointAdd ⟨1, 10, false, (⟨0, 7, 23⟩ : CurveParams)⟩
        ⟨22, 11, false, ⟨0, 7, 23⟩⟩ = .ok ⟨6, 4, false, ⟨0, 7, 23⟩⟩ := by
      simp +decide [pointAdd, pointDouble, modInv, modInverse, extendedGCD, modMul,
        modSub, modAdd]
    have hd2 : pointDouble ⟨22, 11, false, (⟨0, 7, 23⟩ : CurveParams)⟩ =
        .ok ⟨11, 2, false, ⟨0, 7, 23⟩⟩ := by
      simp +decide [pointDouble, modInv, modInverse, extendedGCD, modMul, modSub, modAdd]
    have ha3 : pointAdd ⟨6, 4, false, (⟨0, 7, 23⟩ : CurveParams)⟩
        ⟨11, 2, false, ⟨0, 7, 23⟩⟩ = .ok ⟨8, 6, false, ⟨0, 7, 23⟩⟩ := by
      simp +decide [pointAdd, pointDouble, modInv, modInverse, extendedGCD, modMul,
        modSub, modAdd]
    have hd3 : pointDouble ⟨6, 4, false, (⟨0, 7, 23⟩ : CurveParams)⟩ =
        .ok ⟨15, 1, false, ⟨0, 7, 23⟩⟩ := by
      simp +decide [pointDouble, modInv, modInverse, extendedGCD, modMul, modSub, modAdd]
    rw [scalarMultiplySecure, if_neg (by norm_num), if_neg (by norm_num), hlen]
    simp +decide only [ladderLoop, bind, Except.bind, if_true, if_false,
      ha1, hd1, ha2, hd2, ha3, hd3]

/-! ## Bridge from the embedded arithmetic to the Weierstrass group law

The verified group structure on nonsingular points of a Weierstrass curve
over `ZMod p` interprets the embedded point operations: every embedded
point in range and on the curve maps to a group element, and `pointAdd`,
`pointDouble` and the two scalar-multiplication loops realise the group
operations. -/

/-- The short Weierstrass curve `y² = x³ + ax + b` over `ZMod p`
corresponding to the embedded curve parameters. -/
def Wcurve (c : CurveParams) : WeierstrassCurve.Affine (ZMod c.p.toNat) :=
  { a₁ := 0, a₂ := 0, a₃ := 0, a₄ := (c.a : ZMod c.p.toNat), a₆ := (c.b : ZMod c.p.toNat) }

/-- Well-formedness of an embedded curve: odd prime field, nonnegative
coefficients, nonzero discriminant as checked by the source. -/
def GoodCurve (c : CurveParams) : Prop :=
  2 < c.p ∧ Nat.Prime c.p.toNat ∧ 0 ≤ c.a ∧ 0 ≤ c.b ∧
  validateCurveParameters c = true

/-- Well-formedness of an embedded point on the curve `c`: bound to `c`,
accepted by `isOnCurve`, and either the canonical point at infinity
(coordinates `(0, 0)`) or affine with coordinates in `[0, p)`. -/
def PtOk (c : CurveParams) (P : EPoint) : Prop :=
  P.curve = c ∧ isOnCurve P = true ∧
  (P.isInfinity = true → P.x = 0 ∧ P.y = 0) ∧
  (P.isInfinity = false → 0 ≤ P.x ∧ P.x < c.p ∧ 0 ≤ P.y ∧ P.y < c.p)

theorem GoodCurve.p_pos {c : CurveParams} (h : GoodCurve c) : 0 < c.p := by
  have := h.1
  omega

theorem cast_p_zero (c : CurveParams) (hp : 0 < c.p) :
    ((c.p : Int) : ZMod c.p.toNat) = 0 := by
  have h1 : c.p = ((c.p.toNat : Nat) : Int) := (Int.toNat_of_nonneg (by omega)).symm
  rw [h1]
  push_cast
  exact ZMod.natCast_self _

theorem cast_tmodp (c : CurveParams) (hp : 0 < c.p) (x : Int) :
    ((x.tmod c.p : Int) : ZMod c.p.toNat) = (x : ZMod c.p.toNat) := by
  have h1 : c.p = ((c.p.toNat : Nat) : Int) := (Int.toNat_of_nonneg (by omega)).symm
  apply (ZMod.intCast_eq_intCast_iff _ _ _).mpr
  rw [← h1]
  exact tmod_modEq x c.p

theorem cast_modAdd (c : CurveParams) (hp : 0 < c.p) (a b : Int) :
    ((modAdd a b c.p : Int) : ZMod c.p.toNat) =
      (a : ZMod c.p.toNat) + (b : ZMod c.p.toNat) := by
  rw [modAdd, cast_tmodp c hp]
  push_cast
  ring

theorem cast_modMul (c : CurveParams) (hp : 0 < c.p) (a b : Int) :
    ((modMul a b c.p : Int) : ZMod c.p.toNat) =
      (a : ZMod c.p.toNat) * (b : ZMod c.p.toNat) := by
  rw [modMul, cast_tmodp c hp]
  push_cast
  ring

theorem cast_modSub (c : CurveParams) (hp : 0 < c.p) (a b : Int) :
    ((modSub a b c.p : Int) : ZMod c.p.toNat) =
      (a : ZMod c.p.toNat) - (b : ZMod c.p.toNat) := by
  rw [modSub]
  split
  · push_cast [cast_tmodp c hp, cast_p_zero c hp]
    ring
  · rw [cast_tmodp c hp]
    push_cast
    ring

theorem modSub_nonneg (c : CurveParams) (hp : 0 < c.p) (a b : Int) :
    0 ≤ modSub a b c.p := by
  rw [modSub]
  have h1 := neg_lt_tmod (a - b) (show c.p ≠ 0 by omega)
  split <;> omega

theorem modSub_lt (c : CurveParams) (hp : 0 < c.p) (a b : Int) :
    modSub a b c.p < c.p := by
  rw [modSub]
  have h1 := tmod_lt_natAbs (a - b) (show c.p ≠ 0 by omega)
  split <;> omega

theorem modMul_nonneg (c : CurveParams) (hp : 0 < c.p) {a b : Int}
    (ha : 0 ≤ a) (hb : 0 ≤ b) : 0 ≤ modMul a b c.p :=
  Int.tmod_nonneg c.p (mul_nonneg ha hb)

theorem modMul_lt (c : CurveParams) (hp : 0 < c.p) (a b : Int) :
    modMul a b c.p < c.p := by
  have h1 := tmod_lt_natAbs (a * b) (show c.p ≠ 0 by omega)
  rw [modMul]
  omega

theorem modAdd_nonneg (c : CurveParams) (hp : 0 < c.p) {a b : Int}
    (ha : 0 ≤ a) (hb : 0 ≤ b) : 0 ≤ modAdd a b c.p :=
  Int.tmod_nonneg c.p (by omega)

theorem modAdd_lt (c : CurveParams) (hp : 0 < c.p) (a b : Int) :
    modAdd a b c.p < c.p := by
  have h1 := tmod_lt_natAbs (a + b) (show c.p ≠ 0 by omega)
  rw [modAdd]
  omega

theorem cast_inj_of_range (c : CurveParams) (hp : 0 < c.p) {u v : Int}
    (hu0 : 0 ≤ u) (hup : u < c.p) (hv0 : 0 ≤ v) (hvp : v < c.p) :
    ((u : ZMod c.p.toNat) = (v : ZMod c.p.toNat)) ↔ u = v := by
  constructor
  · intro h
    have h1 := (ZMod.intCast_eq_intCast_iff u v c.p.toNat).mp h
    have h2 : c.p = ((c.p.toNat : Nat) : Int) := (Int.toNat_of_nonneg (by omega)).symm
    have h3 : u % c.p = v % c.p := by rw [h2]; exact h1
    rw [Int.emod_eq_of_lt hu0 hup, Int.emod_eq_of_lt hv0 hvp] at h3
    exact h3
  · intro h
    rw [h]

theorem isOnCurve_iff_equation (c : CurveParams) (hgc : GoodCurve c) (P : EPoint)
    (hPc : P.curve = c) (hinf : P.isInfinity = false)
    (hx0 : 0 ≤ P.x) (hy0 : 0 ≤ P.y) :
    isOnCurve P = true ↔
      (Wcurve c).Equation (P.x : ZMod c.p.toNat) (P.y : ZMod c.p.toNat) := by
  obtain ⟨hp2, hprime, ha, hb, hval⟩ := hgc
  have hp : 0 < c.p := by omega
  rw [isOnCurve, if_neg (by rw [hinf]; exact Bool.false_ne_true), hPc, beq_iff_eq]
  have hlhs0 : 0 ≤ modMul P.y P.y c.p := modMul_nonneg c hp hy0 hy0
  have hlhsp : modMul P.y P.y c.p < c.p := modMul_lt c hp _ _
  have hx2 : 0 ≤ modMul P.x P.x c.p := modMul_nonneg c hp hx0 hx0
  have hx3 : 0 ≤ modMul (modMul P.x P.x c.p) P.x c.p := modMul_nonneg c hp hx2 hx0
  have hax : 0 ≤ modMul c.a P.x c.p := modMul_nonneg c hp ha hx0
  have hin0 : 0 ≤ modAdd (modMul (modMul P.x P.x c.p) P.x c.p) (modMul c.a P.x c.p) c.p :=
    modAdd_nonneg c hp hx3 hax
  have hrhs0 : 0 ≤ modAdd
      (modAdd (modMul (modMul P.x P.x c.p) P.x c.p) (modMul c.a P.x c.p) c.p) c.b c.p :=
    modAdd_nonneg c hp hin0 hb
  have hrhsp : modAdd
      (modAdd (modMul (modMul P.x P.x c.p) P.x c.p) (modMul c.a P.x c.p) c.p) c.b c.p < c.p :=
    modAdd_lt c hp _ _
  rw [← cast_inj_of_range c hp hlhs0 hlhsp hrhs0 hrhsp]
  rw [cast_modMul c hp, cast_modAdd c hp, cast_modAdd c hp, cast_modMul c hp,
    cast_modMul c hp, cast_modMul c hp]
  rw [WeierstrassCurve.Affine.equation_iff]
  show (_ = _) ↔ (_ = _)
  constructor <;> intro h <;>
    · simp only [Wcurve] at *
      linear_combination h

theorem sixteen_ne_zero (c : CurveParams) (hp2 : 2 < c.p)
    (hprime : Nat.Prime c.p.toNat) : ((16 : ZMod c.p.toNat)) ≠ 0 := by
  have h1 : ((16 : ZMod c.p.toNat)) = (((16 : Nat) : ZMod c.p.toNat)) := by norm_num
  rw [h1, Ne, ZMod.natCast_zmod_eq_zero_iff_dvd]
  intro hdvd
  have h2 : c.p.toNat ∣ 2 ^ 4 := by norm_num at hdvd ⊢; exact hdvd
  have h3 := hprime.dvd_of_dvd_pow h2
  have h4 := Nat.le_of_dvd (by norm_num) h3
  omega

theorem Wcurve_delta_ne_zero (c : CurveParams) (hgc : GoodCurve c) :
    (Wcurve c).Δ ≠ 0 := by
  obtain ⟨hp2, hprime, ha, hb, hval⟩ := hgc
  haveI : Fact (Nat.Prime c.p.toNat) := ⟨hprime⟩
  have hp : 0 < c.p := by omega
  set D : Int := modAdd (modMul 4 (modMul (modMul c.a c.a c.p) c.a c.p) c.p)
      (modMul 27 (modMul c.b c.b c.p) c.p) c.p with hD
  have hDne : D ≠ 0 := by
    rw [validateCurveParameters] at hval
    simpa using hval
  have ha3 : 0 ≤ modMul (modMul c.a c.a c.p) c.a c.p :=
    modMul_nonneg c hp (modMul_nonneg c hp ha ha) ha
  have hb2 : 0 ≤ modMul c.b c.b c.p := modMul_nonneg c hp hb hb
  have hD0 : 0 ≤ D :=
    modAdd_nonneg c hp (modMul_nonneg c hp (by norm_num) ha3)
      (modMul_nonneg c hp (by norm_num) hb2)
  have hDp : D < c.p := modAdd_lt c hp _ _
  have hDcast : ((D : Int) : ZMod c.p.toNat) ≠ 0 := by
    intro h
    apply hDne
    have h0 : ((0 : Int) : ZMod c.p.toNat) = 0 := by norm_num
    exact (cast_inj_of_range c hp hD0 hDp (le_refl 0) hp).mp (by rw [h, h0])
  have hDval : ((D : Int) : ZMod c.p.toNat) =
      4 * (c.a : ZMod c.p.toNat) ^ 3 + 27 * (c.b : ZMod c.p.toNat) ^ 2 := by
    rw [hD, cast_modAdd c hp, cast_modMul c hp, cast_modMul c hp, cast_modMul c hp,
      cast_modMul c hp, cast_modMul c hp]
    push_cast
    ring
  have hDelta : (Wcurve c).Δ =
      -16 * (4 * (c.a : ZMod c.p.toNat) ^ 3 + 27 * (c.b : ZMod c.p.toNat) ^ 2) := by
    show -(Wcurve c).b₂ ^ 2 * (Wcurve c).b₈ - 8 * (Wcurve c).b₄ ^ 3 -
        27 * (Wcurve c).b₆ ^ 2 + 9 * (Wcurve c).b₂ * (Wcurve c).b₄ * (Wcurve c).b₆ = _
    show -((Wcurve c).a₁ ^ 2 + 4 * (Wcurve c).a₂) ^ 2 * _ - _ - _ + _ = _
    simp only [Wcurve, WeierstrassCurve.b₂, WeierstrassCurve.b₄, WeierstrassCurve.b₆,
      WeierstrassCurve.b₈]
    ring
  rw [hDelta]
  rw [hDval] at hDcast
  exact mul_ne_zero (neg_ne_zero.mpr (sixteen_ne_zero c hp2 hprime)) hDcast

theorem ptNonsingular (c : CurveParams) (hgc : GoodCurve c) {P : EPoint}
    (hP : PtOk c P) (hinf : P.isInfinity = false) :
    (Wcurve c).Nonsingular (P.x : ZMod c.p.toNat) (P.y : ZMod c.p.toNat) := by
  obtain ⟨hPc, honc, _, hrange⟩ := hP
  obtain ⟨hx0, hxp, hy0, hyp⟩ := hrange hinf
  have heq := (isOnCurve_iff_equation c hgc P hPc hinf hx0 hy0).mp honc
  exact (Wcurve c).nonsingular_of_Δ_ne_zero heq (Wcurve_delta_ne_zero c hgc)

/-- Abstraction of a well-formed embedded point to a group element of the
Weierstrass curve: the canonical infinity maps to zero, an affine point to
the corresponding nonsingular point. -/
def absP (c : CurveParams) (hgc : GoodCurve c) (P : EPoint) (hP : PtOk c P) :
    (Wcurve c).Point :=
  if hinf : P.isInfinity = true then .zero
  else .some (ptNonsingular c hgc hP (Bool.not_eq_true P.isInfinity ▸ hinf))

theorem absP_of_infinity (c : CurveParams) (hgc : GoodCurve c) {P : EPoint}
    (hP : PtOk c P) (hinf : P.isInfinity = true) : absP c hgc P hP = 0 := by
  rw [absP, dif_pos hinf]
  rfl

theorem absP_of_affine (c : CurveParams) (hgc : GoodCurve c) {P : EPoint}
    (hP : PtOk c P) (hinf : P.isInfinity = false) :
    absP c hgc P hP =
      .some (ptNonsingular c hgc hP hinf) := by
  rw [absP, dif_neg (by rw [hinf]; exact Bool.false_ne_true)]

/-- Two `some` points with equal coordinates are equal. -/
theorem point_some_ext {F : Type} [Field F] {W : WeierstrassCurve.Affine F}
    {x y x' y' : F} (hx : x = x') (hy : y = y')
    (h : W.Nonsingular x y) (h' : W.Nonsingular x' y') :
    (WeierstrassCurve.Affine.Point.some h) = .some h' := by
  subst hx
  subst hy
  rfl

theorem infinity_PtOk (c : CurveParams) : PtOk c (infinityPoint c) := by
  exact ⟨rfl, rfl, fun _ => ⟨rfl, rfl⟩, fun h => by simp [infinityPoint] at h⟩

theorem absP_infinityPoint (c : CurveParams) (hgc : GoodCurve c) :
    absP c hgc (infinityPoint c) (infinity_PtOk c) = 0 :=
  absP_of_infinity c hgc _ rfl

/-- Injectivity of the abstraction on well-formed points. -/
theorem absP_inj (c : CurveParams) (hgc : GoodCurve c) {P Q : EPoint}
    (hP : PtOk c P) (hQ : PtOk c Q)
    (h : absP c hgc P hP = absP c hgc Q hQ) : P = Q := by
  have hp : 0 < c.p := hgc.p_pos
  obtain ⟨hPc, _, hPinf, hPaff⟩ := hP
  obtain ⟨hQc, _, hQinf, hQaff⟩ := hQ
  cases hPi : P.isInfinity with
  | true =>
    cases hQi : Q.isInfinity with
    | true =>
      obtain ⟨hPx, hPy⟩ := hPinf hPi
      obtain ⟨hQx, hQy⟩ := hQinf hQi
      cases P
      cases Q
      dsimp only at hPx hPy hQx hQy hPi hQi hPc hQc
      subst hPx
      subst hPy
      subst hQx
      subst hQy
      subst hPi
      subst hQi
      subst hPc
      subst hQc
      rfl
    | false =>
      rw [absP_of_infinity c hgc _ hPi, absP_of_affine c hgc _ hQi] at h
      exact absurd h.symm (WeierstrassCurve.Affine.Point.some_ne_zero _)
  | false =>
    cases hQi : Q.isInfinity with
    | true =>
      rw [absP_of_infinity c hgc _ hQi, absP_of_affine c hgc _ hPi] at h
      exact absurd h (WeierstrassCurve.Affine.Point.some_ne_zero _)
    | false =>
      rw [absP_of_affine c hgc _ hPi, absP_of_affine c hgc _ hQi] at h
      obtain ⟨hPx0, hPxp, hPy0, hPyp⟩ := hPaff hPi
      obtain ⟨hQx0, hQxp, hQy0, hQyp⟩ := hQaff hQi
      injection h with hx hy
      have hxI : P.x = Q.x := (cast_inj_of_range c hp hPx0 hPxp hQx0 hQxp).mp hx
      have hyI : P.y = Q.y := (cast_inj_of_range c hp hPy0 hPyp hQy0 hQyp).mp hy
      cases P
      cases Q
      dsimp only at hxI hyI hPi hQi hPc hQc
      subst hxI
      subst hyI
      subst hPi
      subst hQi
      subst hPc
      subst hQc
      rfl

theorem zmod_two_ne_zero (c : CurveParams) (hp2 : 2 < c.p)
    (hprime : Nat.Prime c.p.toNat) : ((2 : ZMod c.p.toNat)) ≠ 0 := by
  have h1 : ((2 : ZMod c.p.toNat)) = (((2 : Nat) : ZMod c.p.toNat)) := by norm_num
  rw [h1, Ne, ZMod.natCast_zmod_eq_zero_iff_dvd]
  intro hdvd
  have h4 := Nat.le_of_dvd (by norm_num) hdvd
  omega

theorem gcd_one_of_range (c : CurveParams) (hprime : Nat.Prime c.p.toNat)
    {d : Int} (h0 : 0 < d) (hdp : d < c.p) : Int.gcd d c.p = 1 := by
  have hp : 0 < c.p := by
    have := hprime.two_le
    omega
  have h1 : d.natAbs < c.p.toNat := by omega
  have h2 : 0 < d.natAbs := by omega
  have h3 : ¬ c.p.toNat ∣ d.natAbs := fun hdvd => by
    have := Nat.le_of_dvd h2 hdvd
    omega
  have h4 : Nat.Coprime c.p.toNat d.natAbs := (hprime.coprime_iff_not_dvd).mpr h3
  show Nat.gcd d.natAbs c.p.natAbs = 1
  have h5 : c.p.natAbs = c.p.toNat := by omega
  rw [h5, Nat.gcd_comm]
  exact h4

theorem modInv_some (c : CurveParams) (hgc : GoodCurve c) {den : Int}
    (h0 : 0 < den) (hdp : den < c.p) :
    ∃ inv, modInv den c.p = some inv ∧ 0 ≤ inv ∧ inv < c.p ∧
      ((den : Int) : ZMod c.p.toNat) * ((inv : Int) : ZMod c.p.toNat) = 1 := by
  have hp : 0 < c.p := hgc.p_pos
  obtain ⟨inv, hinv, hinv0, hinvp, hmodeq⟩ :=
    modInverse_some den c.p (by omega) hp (gcd_one_of_range c hgc.2.1 h0 hdp)
  refine ⟨inv, hinv, hinv0, hinvp, ?_⟩
  have h1 : c.p = ((c.p.toNat : Nat) : Int) := (Int.toNat_of_nonneg (by omega)).symm
  have h2 : den * inv ≡ 1 [ZMOD ((c.p.toNat : Nat) : Int)] := by
    rw [← h1]
    exact hmodeq
  have h3 := (ZMod.intCast_eq_intCast_iff (den * inv) 1 c.p.toNat).mpr h2
  push_cast at h3
  exact h3

theorem Wcurve_negY (c : CurveParams) (x y : ZMod c.p.toNat) :
    (Wcurve c).negY x y = -y := by
  simp [WeierstrassCurve.Affine.negY, Wcurve]

theorem pointDouble_bridge (c : CurveParams) [Fact (Nat.Prime c.p.toNat)]
    (hgc : GoodCurve c) {P : EPoint} (hP : PtOk c P) :
    ∃ (R : EPoint) (hR : PtOk c R), pointDouble P = .ok R ∧
      absP c hgc R hR = absP c hgc P hP + absP c hgc P hP := by
  have hp : 0 < c.p := hgc.p_pos
  have hp2 := hgc.1
  have hprime := hgc.2.1
  have hPc := hP.1
  by_cases hinf : P.isInfinity = true
  · refine ⟨infinityPoint c, infinity_PtOk c, ?_, ?_⟩
    · rw [pointDouble, if_pos hinf, hPc]
    · rw [absP_infinityPoint, absP_of_infinity c hgc hP hinf, add_zero]
  · have hinf' : P.isInfinity = false := by
      revert hinf
      cases P.isInfinity <;> simp
    obtain ⟨hx0, hxp, hy0, hyp⟩ := hP.2.2.2 hinf'
    have hEqP := (isOnCurve_iff_equation c hgc P hPc hinf' hx0 hy0).mp hP.2.1
    by_cases hy : P.y = 0
    · refine ⟨infinityPoint c, infinity_PtOk c, ?_, ?_⟩
      · rw [pointDouble, if_neg hinf, if_pos hy, hPc]
      · rw [absP_infinityPoint, absP_of_affine c hgc hP hinf']
        have hyc : (P.y : ZMod c.p.toNat) = 0 := by rw [hy]; norm_num
        symm
        apply WeierstrassCurve.Affine.Point.add_of_Y_eq rfl
        rw [Wcurve_negY, hyc, neg_zero]
    · -- generic doubling branch
      have hypos : 0 < P.y := by omega
      have hyc_ne : (P.y : ZMod c.p.toNat) ≠ 0 := by
        intro h
        apply hy
        refine (cast_inj_of_range c hp hy0 hyp (le_refl 0) hp).mp ?_
        rw [h]
        norm_num
      have h2ne := zmod_two_ne_zero c hp2 hprime
      have hden0 : 0 ≤ modMul 2 P.y c.p := modMul_nonneg c hp (by norm_num) hy0
      have hdenp : modMul 2 P.y c.p < c.p := modMul_lt c hp _ _
      have hdenc : ((modMul 2 P.y c.p : Int) : ZMod c.p.toNat) = 2 * (P.y : ZMod c.p.toNat) := by
        rw [cast_modMul c hp]
        norm_num
      have hdenc_ne : ((modMul 2 P.y c.p : Int) : ZMod c.p.toNat) ≠ 0 := by
        rw [hdenc]
        exact mul_ne_zero h2ne hyc_ne
      have hdpos : 0 < modMul 2 P.y c.p := by
        rcases lt_or_eq_of_le hden0 with h | h
        · exact h
        · exfalso
          apply hdenc_ne
          rw [← h]
          norm_num
      obtain ⟨inv, hinv_eq, hinv0, hinvp, hinvmul⟩ := modInv_some c hgc hdpos hdenp
      have hinvc : ((inv : Int) : ZMod c.p.toNat) =
          ((modMul 2 P.y c.p : Int) : ZMod c.p.toNat)⁻¹ := by
        apply eq_inv_of_mul_eq_one_left
        rw [mul_comm]
        exact hinvmul
      -- the y-coordinate is not the negation, so the tangent has a slope
      have hyne : (P.y : ZMod c.p.toNat) ≠
          (Wcurve c).negY (P.x : ZMod c.p.toNat) (P.y : ZMod c.p.toNat) := by
        rw [Wcurve_negY]
        intro h
        have h2 : (2 : ZMod c.p.toNat) * (P.y : ZMod c.p.toNat) = 0 := by
          have : (P.y : ZMod c.p.toNat) + (P.y : ZMod c.p.toNat) = 0 := by
            nth_rewrite 1 [h]
            ring
          calc (2 : ZMod c.p.toNat) * (P.y : ZMod c.p.toNat)
              = (P.y : ZMod c.p.toNat) + (P.y : ZMod c.p.toNat) := by ring
            _ = 0 := this
        rcases mul_eq_zero.mp h2 with h3 | h3
        · exact h2ne h3
        · exact hyc_ne h3
      -- the computed slope agrees with the Weierstrass slope
      have hlamc : ((modMul (modAdd (modMul 3 (modMul P.x P.x c.p) c.p) c.a c.p)
            inv c.p : Int) : ZMod c.p.toNat) =
          (Wcurve c).slope (P.x : ZMod c.p.toNat) (P.x : ZMod c.p.toNat)
            (P.y : ZMod c.p.toNat) (P.y : ZMod c.p.toNat) := by
        rw [WeierstrassCurve.Affine.slope_of_Y_ne rfl hyne]
        rw [cast_modMul c hp, cast_modAdd c hp, cast_modMul c hp, cast_modMul c hp,
          hinvc, hdenc, Wcurve_negY]
        simp only [Wcurve]
        push_cast
        rw [div_eq_mul_inv]
        congr 1
        · ring
        · congr 1
          ring
      -- the computed coordinates
      set lam : Int := modMul (modAdd (modMul 3 (modMul P.x P.x c.p) c.p) c.a c.p) inv c.p
        with hlam
      set x3 : Int := modSub (modMul lam lam c.p) (modMul 2 P.x c.p) c.p with hx3
      set y3 : Int := modSub (modMul lam (modSub P.x x3 c.p) c.p) P.y c.p with hy3
      have hx30 : 0 ≤ x3 := modSub_nonneg c hp _ _
      have hx3p : x3 < c.p := modSub_lt c hp _ _
      have hy30 : 0 ≤ y3 := modSub_nonneg c hp _ _
      have hy3p : y3 < c.p := modSub_lt c hp _ _
      clear_value lam x3 y3
      have hX : ((x3 : Int) : ZMod c.p.toNat) =
          (Wcurve c).addX (P.x : ZMod c.p.toNat) (P.x : ZMod c.p.toNat)
            ((Wcurve c).slope (P.x : ZMod c.p.toNat) (P.x : ZMod c.p.toNat)
              (P.y : ZMod c.p.toNat) (P.y : ZMod c.p.toNat)) := by
        rw [hx3, cast_modSub c hp, cast_modMul c hp, cast_modMul c hp, hlamc]
        simp only [WeierstrassCurve.Affine.addX, Wcurve]
        push_cast
        ring
      have hY : ((y3 : Int) : ZMod c.p.toNat) =
          (Wcurve c).addY (P.x : ZMod c.p.toNat) (P.x : ZMod c.p.toNat)
            (P.y : ZMod c.p.toNat)
            ((Wcurve c).slope (P.x : ZMod c.p.toNat) (P.x : ZMod c.p.toNat)
              (P.y : ZMod c.p.toNat) (P.y : ZMod c.p.toNat)) := by
        rw [hy3, cast_modSub c hp, cast_modMul c hp, cast_modSub c hp, hlamc, hX]
        simp only [WeierstrassCurve.Affine.addY, WeierstrassCurve.Affine.negAddY,
          WeierstrassCurve.Affine.negY, WeierstrassCurve.Affine.addX, Wcurve]
        push_cast
        ring
      have hEqR : (Wcurve c).Equation ((x3 : Int) : ZMod c.p.toNat)
          ((y3 : Int) : ZMod c.p.toNat) := by
        rw [hX, hY]
        exact WeierstrassCurve.Affine.equation_add hEqP hEqP (fun _ => hyne)
      have hROk : PtOk c ⟨x3, y3, false, c⟩ := by
        refine ⟨rfl, ?_, ?_, ?_⟩
        · exact (isOnCurve_iff_equation c hgc ⟨x3, y3, false, c⟩ rfl rfl hx30 hy30).mpr hEqR
        · intro h
          exact absurd h Bool.false_ne_true
        · intro _
          exact ⟨hx30, hx3p, hy30, hy3p⟩
      refine ⟨⟨x3, y3, false, c⟩, hROk, ?_, ?_⟩
      · rw [pointDouble, if_neg hinf, if_neg hy, hPc]
        dsimp only
        rw [hinv_eq]
        dsimp only
        rw [hy3, hx3, hlam]
      · rw [absP_of_affine c hgc hROk rfl, absP_of_affine c hgc hP hinf']
        rw [WeierstrassCurve.Affine.Point.add_self_of_Y_ne hyne]
        exact point_some_ext hX hY _ _

/-- `pointAdd(P, Q)` on well-formed points of a good curve succeeds and
realises the Weierstrass group law under the abstraction `absP`. -/
theorem pointAdd_bridge (c : CurveParams) [Fact (Nat.Prime c.p.toNat)]
    (hgc : GoodCurve c) {P Q : EPoint} (hP : PtOk c P) (hQ : PtOk c Q) :
    ∃ (R : EPoint) (hR : PtOk c R), pointAdd P Q = .ok R ∧
      absP c hgc R hR = absP c hgc P hP + absP c hgc Q hQ := by
  have hp : 0 < c.p := hgc.p_pos
  have hPc := hP.1
  have hQc := hQ.1
  by_cases hPinf : P.isInfinity = true
  · refine ⟨Q, hQ, ?_, ?_⟩
    · rw [pointAdd, if_pos hPinf]
    · rw [absP_of_infinity c hgc hP hPinf, zero_add]
  by_cases hQinf : Q.isInfinity = true
  · refine ⟨P, hP, ?_, ?_⟩
    · rw [pointAdd, if_neg hPinf, if_pos hQinf]
    · rw [absP_of_infinity c hgc hQ hQinf, add_zero]
  have hPinf' : P.isInfinity = false := by
    revert hPinf
    cases P.isInfinity <;> simp
  have hQinf' : Q.isInfinity = false := by
    revert hQinf
    cases Q.isInfinity <;> simp
  obtain ⟨hPx0, hPxp, hPy0, hPyp⟩ := hP.2.2.2 hPinf'
  obtain ⟨hQx0, hQxp, hQy0, hQyp⟩ := hQ.2.2.2 hQinf'
  have hEqP := (isOnCurve_iff_equation c hgc P hPc hPinf' hPx0 hPy0).mp hP.2.1
  have hEqQ := (isOnCurve_iff_equation c hgc Q hQc hQinf' hQx0 hQy0).mp hQ.2.1
  by_cases hc1 : P.x = Q.x ∧ P.y ≠ Q.y
  · -- opposite affine points: the sum is the point at infinity
    refine ⟨infinityPoint c, infinity_PtOk c, ?_, ?_⟩
    · rw [pointAdd, if_neg hPinf, if_neg hQinf, if_pos hc1, hPc]
    · have hxc : (P.x : ZMod c.p.toNat) = (Q.x : ZMod c.p.toNat) := by rw [hc1.1]
      have hyne : (P.y : ZMod c.p.toNat) ≠ (Q.y : ZMod c.p.toNat) := by
        intro h
        exact hc1.2 ((cast_inj_of_range c hp hPy0 hPyp hQy0 hQyp).mp h)
      have hy : (P.y : ZMod c.p.toNat) =
          (Wcurve c).negY (Q.x : ZMod c.p.toNat) (Q.y : ZMod c.p.toNat) := by
        rcases WeierstrassCurve.Affine.Y_eq_of_X_eq hEqP hEqQ hxc with h | h
        · exact absurd h hyne
        · exact h
      rw [absP_infinityPoint, absP_of_affine c hgc hP hPinf',
        absP_of_affine c hgc hQ hQinf']
      exact (WeierstrassCurve.Affine.Point.add_of_Y_eq hxc hy).symm
  by_cases hc2 : P.x = Q.x ∧ P.y = Q.y
  · -- equal points: the source delegates to pointDouble
    have hQP : Q = P := by
      show (⟨Q.x, Q.y, Q.isInfinity, Q.curve⟩ : EPoint) =
        ⟨P.x, P.y, P.isInfinity, P.curve⟩
      rw [hc2.1, hc2.2, hPinf', hQinf', hPc, hQc]
    subst hQP
    obtain ⟨R, hR, hcomp, habs⟩ := pointDouble_bridge c hgc hP
    refine ⟨R, hR, ?_, ?_⟩
    · rw [pointAdd, if_neg hPinf, if_neg hQinf, if_neg hc1, if_pos hc2]
      exact hcomp
    · rw [habs]
  · -- distinct x-coordinates: chord addition
    have hxne : P.x ≠ Q.x := by
      intro h
      rcases eq_or_ne P.y Q.y with h' | h'
      · exact hc2 ⟨h, h'⟩
      · exact hc1 ⟨h, h'⟩
    have hxcne : (P.x : ZMod c.p.toNat) ≠ (Q.x : ZMod c.p.toNat) := by
      intro h
      exact hxne ((cast_inj_of_range c hp hPx0 hPxp hQx0 hQxp).mp h)
    have hden0 : 0 ≤ modSub Q.x P.x c.p := modSub_nonneg c hp _ _
    have hdenp : modSub Q.x P.x c.p < c.p := modSub_lt c hp _ _
    have hdenc : ((modSub Q.x P.x c.p : Int) : ZMod c.p.toNat) =
        (Q.x : ZMod c.p.toNat) - (P.x : ZMod c.p.toNat) := cast_modSub c hp _ _
    have hdenc_ne : ((modSub Q.x P.x c.p : Int) : ZMod c.p.toNat) ≠ 0 := by
      rw [hdenc]
      intro h
      apply hxcne
      symm
      exact sub_eq_zero.mp h
    have hdpos : 0 < modSub Q.x P.x c.p := by
      rcases lt_or_eq_of_le hden0 with h | h
      · exact h
      · exfalso
        apply hdenc_ne
        rw [← h]
        norm_num
    obtain ⟨inv, hinv_eq, hinv0, hinvp, hinvmul⟩ := modInv_some c hgc hdpos hdenp
    have hinvc : ((inv : Int) : ZMod c.p.toNat) =
        ((modSub Q.x P.x c.p : Int) : ZMod c.p.toNat)⁻¹ := by
      apply eq_inv_of_mul_eq_one_left
      rw [mul_comm]
      exact hinvmul
    have hflip : ((P.y : ZMod c.p.toNat) - (Q.y : ZMod c.p.toNat)) /
        ((P.x : ZMod c.p.toNat) - (Q.x : ZMod c.p.toNat)) =
        ((Q.y : ZMod c.p.toNat) - (P.y : ZMod c.p.toNat)) /
        ((Q.x : ZMod c.p.toNat) - (P.x : ZMod c.p.toNat)) := by
      rw [← neg_sub ((Q.y : Int) : ZMod c.p.toNat) ((P.y : Int) : ZMod c.p.toNat),
        ← neg_sub ((Q.x : Int) : ZMod c.p.toNat) ((P.x : Int) : ZMod c.p.toNat),
        neg_div_neg_eq]
    have hlamc : ((modMul (modSub Q.y P.y c.p) inv c.p : Int) : ZMod c.p.toNat) =
        (Wcurve c).slope (P.x : ZMod c.p.toNat) (Q.x : ZMod c.p.toNat)
          (P.y : ZMod c.p.toNat) (Q.y : ZMod c.p.toNat) := by
      rw [WeierstrassCurve.Affine.slope_of_X_ne hxcne]
      rw [cast_modMul c hp, cast_modSub c hp, hinvc, hdenc, hflip, div_eq_mul_inv]
    -- the computed coordinates
    set lam : Int := modMul (modSub Q.y P.y c.p) inv c.p with hlam
    set x3 : Int := modSub (modSub (modMul lam lam c.p) P.x c.p) Q.x c.p with hx3
    set y3 : Int := modSub (modMul lam (modSub P.x x3 c.p) c.p) P.y c.p with hy3
    have hx30 : 0 ≤ x3 := modSub_nonneg c hp _ _
    have hx3p : x3 < c.p := modSub_lt c hp _ _
    have hy30 : 0 ≤ y3 := modSub_nonneg c hp _ _
    have hy3p : y3 < c.p := modSub_lt c hp _ _
    clear_value lam x3 y3
    have hX : ((x3 : Int) : ZMod c.p.toNat) =
        (Wcurve c).addX (P.x : ZMod c.p.toNat) (Q.x : ZMod c.p.toNat)
          ((Wcurve c).slope (P.x : ZMod c.p.toNat) (Q.x : ZMod c.p.toNat)
            (P.y : ZMod c.p.toNat) (Q.y : ZMod c.p.toNat)) := by
      rw [hx3, cast_modSub c hp, cast_modSub c hp, cast_modMul c hp, hlamc]
      simp only [WeierstrassCurve.Affine.addX, Wcurve]
      push_cast
      ring
    have hY : ((y3 : Int) : ZMod c.p.toNat) =
        (Wcurve c).addY (P.x : ZMod c.p.toNat) (Q.x : ZMod c.p.toNat)
          (P.y : ZMod c.p.toNat)
          ((Wcurve c).slope (P.x : ZMod c.p.toNat) (Q.x : ZMod c.p.toNat)
            (P.y : ZMod c.p.toNat) (Q.y : ZMod c.p.toNat)) := by
      rw [hy3, cast_modSub c hp, cast_modMul c hp, cast_modSub c hp, hlamc, hX]
      simp only [WeierstrassCurve.Affine.addY, WeierstrassCurve.Affine.negAddY,
        WeierstrassCurve.Affine.negY, WeierstrassCurve.Affine.addX, Wcurve]
      push_cast
      ring
    have hEqR : (Wcurve c).Equation ((x3 : Int) : ZMod c.p.toNat)
        ((y3 : Int) : ZMod c.p.toNat) := by
      rw [hX, hY]
      exact WeierstrassCurve.Affine.equation_add hEqP hEqQ (fun h => absurd h hxcne)
    have hROk : PtOk c ⟨x3, y3, false, c⟩ := by
      refine ⟨rfl, ?_, ?_, ?_⟩
      · exact (isOnCurve_iff_equation c hgc ⟨x3, y3, false, c⟩ rfl rfl hx30 hy30).mpr hEqR
      · intro h
        exact absurd h Bool.false_ne_true
      · intro _
        exact ⟨hx30, hx3p, hy30, hy3p⟩
    refine ⟨⟨x3, y3, false, c⟩, hROk, ?_, ?_⟩
    · rw [pointAdd, if_neg hPinf, if_neg hQinf, if_neg hc1, if_neg hc2, hPc]
      dsimp only
      rw [hinv_eq]
      dsimp only
      rw [hy3, hx3, hlam]
    · rw [absP_of_affine c hgc hROk rfl, absP_of_affine c hgc hP hPinf',
        absP_of_affine c hgc hQ hQinf']
      rw [WeierstrassCurve.Affine.Point.add_of_X_ne hxcne]
      exact point_some_ext hX hY _ _

/-- The double-and-add loop of `scalarMultiply` computes
`result + scalar • temp` in the Weierstrass group, for nonnegative
scalars, and never fails on well-formed inputs. -/
theorem daLoop_bridge (c : CurveParams) [Fact (Nat.Prime c.p.toNat)]
    (hgc : GoodCurve c) :
    ∀ (n : Nat) (s : Int), s.toNat = n → 0 ≤ s →
      ∀ (R T : EPoint) (hR : PtOk c R) (hT : PtOk c T),
      ∃ (V : EPoint) (hV : PtOk c V), daLoop R T s = .ok V ∧
        absP c hgc V hV = absP c hgc R hR + s.toNat • absP c hgc T hT := by
  intro n
  induction n using Nat.strong_induction_on with
  | _ n ih =>
    intro s hsn hs R T hR hT
    by_cases hpos : 0 < s
    · have hdiv : s.tdiv 2 = s / 2 := Int.tdiv_eq_ediv (by omega) (by omega)
      have htmod : s.tmod 2 = s % 2 := Int.tmod_eq_emod (by omega) (by omega)
      have hrec_lt : (s.tdiv 2).toNat < n := by
        rw [hdiv]
        omega
      have hrec_nonneg : 0 ≤ s.tdiv 2 := by
        rw [hdiv]
        omega
      obtain ⟨t, ht, htcomp, htabs⟩ := pointDouble_bridge c hgc hT
      by_cases hbit : s.tmod 2 = 1
      · obtain ⟨r, hr, hrcomp, hrabs⟩ := pointAdd_bridge c hgc hR hT
        obtain ⟨V, hV, hVcomp, hVabs⟩ :=
          ih (s.tdiv 2).toNat hrec_lt (s.tdiv 2) rfl hrec_nonneg r t hr ht
        refine ⟨V, hV, ?_, ?_⟩
        · rw [daLoop, if_pos hpos, if_pos hbit, hrcomp, htcomp]
          simp only [bind, Except.bind]
          exact hVcomp
        · have hcount : (s.tdiv 2).toNat + (s.tdiv 2).toNat + 1 = s.toNat := by
            rw [hdiv]
            omega
          rw [hVabs, hrabs, htabs, nsmul_add, ← hcount, add_nsmul, add_nsmul, one_nsmul]
          abel
      · obtain ⟨V, hV, hVcomp, hVabs⟩ :=
          ih (s.tdiv 2).toNat hrec_lt (s.tdiv 2) rfl hrec_nonneg R t hR ht
        refine ⟨V, hV, ?_, ?_⟩
        · rw [daLoop, if_pos hpos, if_neg hbit, htcomp]
          simp only [bind, Except.bind]
          exact hVcomp
        · have hcount : (s.tdiv 2).toNat + (s.tdiv 2).toNat = s.toNat := by
            rw [hdiv]
            omega
          rw [hVabs, htabs, nsmul_add, ← hcount, add_nsmul]
    · have hz : s = 0 := by omega
      refine ⟨R, hR, ?_, ?_⟩
      · rw [daLoop, if_neg hpos]
      · rw [hz]
        simp only [Int.toNat_zero, zero_nsmul, add_zero]

/-- The Montgomery-ladder loop of `scalarMultiplySecure`: starting from a
pair whose abstractions differ by `X`, after `count` steps the first
component represents `2^count` times the start plus the low `count` bits
of `k` times `X`, and the loop never fails on well-formed points. -/
theorem ladderLoop_bridge (c : CurveParams) [Fact (Nat.Prime c.p.toNat)]
    (hgc : GoodCurve c) (k : Int) (hk : 0 ≤ k) (X : (Wcurve c).Point) :
    ∀ (count : Nat) (R0 R1 : EPoint) (h0 : PtOk c R0) (h1 : PtOk c R1),
      absP c hgc R1 h1 = absP c hgc R0 h0 + X →
      ∃ (V0 V1 : EPoint) (hV0 : PtOk c V0) (hV1 : PtOk c V1),
        ladderLoop k count R0 R1 = .ok (V0, V1) ∧
        absP c hgc V0 hV0 =
          2 ^ count • absP c hgc R0 h0 + (k.toNat % 2 ^ count) • X ∧
        absP c hgc V1 hV1 = absP c hgc V0 hV0 + X := by
  intro count
  induction count with
  | zero =>
    intro R0 R1 h0 h1 hinv
    refine ⟨R0, R1, h0, h1, rfl, ?_, hinv⟩
    simp only [pow_zero, one_nsmul, Nat.mod_one, zero_nsmul, add_zero]
  | succ count ih =>
    intro R0 R1 h0 h1 hinv
    have hbi : ((k.toNat / 2 ^ count % 2 : Nat) : Int) = (k / 2 ^ count) % 2 := by
      push_cast
      rw [Int.toNat_of_nonneg hk]
    by_cases hb : (k / 2 ^ count) % 2 = 0
    · obtain ⟨r1, hr1, hr1comp, hr1abs⟩ := pointAdd_bridge c hgc h0 h1
      obtain ⟨r0, hr0, hr0comp, hr0abs⟩ := pointDouble_bridge c hgc h0
      have hinv' : absP c hgc r1 hr1 = absP c hgc r0 hr0 + X := by
        rw [hr1abs, hr0abs, hinv]
        abel
      obtain ⟨V0, V1, hV0, hV1, hcomp, habs0, habs1⟩ := ih r0 r1 hr0 hr1 hinv'
      refine ⟨V0, V1, hV0, hV1, ?_, ?_, habs1⟩
      · simp only [ladderLoop]
        rw [if_pos hb, hr1comp, hr0comp]
        simp only [bind, Except.bind]
        exact hcomp
      · have hbitn : k.toNat / 2 ^ count % 2 = 0 := by omega
        have hmod : k.toNat % 2 ^ (count + 1) = k.toNat % 2 ^ count := by
          rw [Nat.mod_pow_succ, hbitn, Nat.mul_zero, Nat.add_zero]
        rw [habs0, hr0abs, hmod, ← two_nsmul, ← mul_nsmul, pow_succ']
    · obtain ⟨r0, hr0, hr0comp, hr0abs⟩ := pointAdd_bridge c hgc h0 h1
      obtain ⟨r1, hr1, hr1comp, hr1abs⟩ := pointDouble_bridge c hgc h1
      have hinv' : absP c hgc r1 hr1 = absP c hgc r0 hr0 + X := by
        rw [hr1abs, hr0abs, hinv]
        abel
      obtain ⟨V0, V1, hV0, hV1, hcomp, habs0, habs1⟩ := ih r0 r1 hr0 hr1 hinv'
      refine ⟨V0, V1, hV0, hV1, ?_, ?_, habs1⟩
      · simp only [ladderLoop]
        rw [if_neg hb, hr0comp, hr1comp]
        simp only [bind, Except.bind]
        exact hcomp
      · have hbitn : k.toNat / 2 ^ count % 2 = 1 := by omega
        have hmod : k.toNat % 2 ^ (count + 1) = k.toNat % 2 ^ count + 2 ^ count := by
          rw [Nat.mod_pow_succ, hbitn, Nat.mul_one]
        rw [habs0, hr0abs, hinv, ← add_assoc, nsmul_add, ← two_nsmul, ← mul_nsmul,
          hmod, add_nsmul, pow_succ']
        abel

/-- `scalarMultiply(k, P)` on a well-formed point of a good curve succeeds
for every nonnegative `k` and computes `k • P` in the Weierstrass group. -/
theorem scalarMultiply_bridge (c : CurveParams) [Fact (Nat.Prime c.p.toNat)]
    (hgc : GoodCurve c) {P : EPoint} (hP : PtOk c P) (k : Int) (hk : 0 ≤ k) :
    ∃ (R : EPoint) (hR : PtOk c R), scalarMultiply k P = .ok R ∧
      absP c hgc R hR = k.toNat • absP c hgc P hP := by
  have hPc := hP.1
  by_cases h0 : k = 0
  · refine ⟨infinityPoint c, infinity_PtOk c, ?_, ?_⟩
    · rw [scalarMultiply, if_pos h0, hPc]
    · rw [absP_infinityPoint, h0]
      simp only [Int.toNat_zero, zero_nsmul]
  by_cases h1 : k = 1
  · refine ⟨P, hP, ?_, ?_⟩
    · rw [scalarMultiply, if_neg h0, if_pos h1]
    · rw [h1]
      simp only [Int.toNat_one, one_nsmul]
  · have hneg : ¬ k < 0 := by omega
    obtain ⟨V, hV, hcomp, habs⟩ := daLoop_bridge c hgc k.toNat k rfl hk
      (infinityPoint c) P (infinity_PtOk c) hP
    refine ⟨V, hV, ?_, ?_⟩
    · rw [scalarMultiply, if_neg h0, if_neg h1, if_neg hneg, hPc]
      exact hcomp
    · rw [habs, absP_infinityPoint, zero_add]

/-- `scalarMultiplySecure(k, P)` on a well-formed point of a good curve
succeeds for every nonnegative `k` and computes `k • P` in the
Weierstrass group. -/
theorem scalarMultiplySecure_bridge (c : CurveParams) [Fact (Nat.Prime c.p.toNat)]
    (hgc : GoodCurve c) {P : EPoint} (hP : PtOk c P) (k : Int) (hk : 0 ≤ k) :
    ∃ (R : EPoint) (hR : PtOk c R), scalarMultiplySecure k P = .ok R ∧
      absP c hgc R hR = k.toNat • absP c hgc P hP := by
  have hPc := hP.1
  by_cases h0 : k = 0
  · refine ⟨infinityPoint c, infinity_PtOk c, ?_, ?_⟩
    · rw [scalarMultiplySecure, if_pos h0, hPc]
    · rw [absP_infinityPoint, h0]
      simp only [Int.toNat_zero, zero_nsmul]
  by_cases h1 : k = 1
  · refine ⟨P, hP, ?_, ?_⟩
    · rw [scalarMultiplySecure, if_neg h0, if_pos h1]
    · rw [h1]
      simp only [Int.toNat_one, one_nsmul]
  · have hlen : jsBinLen k = bitLen k.natAbs := by
      rw [jsBinLen, if_neg (by omega)]
    have hkx : k.toNat % 2 ^ bitLen k.natAbs = k.toNat := by
      have h2 := lt_two_pow_bitLen k.natAbs
      have h3 : k.natAbs = k.toNat := by omega
      exact Nat.mod_eq_of_lt (by omega)
    have hstart : absP c hgc P hP =
        absP c hgc (infinityPoint c) (infinity_PtOk c) + absP c hgc P hP := by
      rw [absP_infinityPoint, zero_add]
    obtain ⟨V0, V1, hV0, hV1, hcomp, habs0, _⟩ :=
      ladderLoop_bridge c hgc k hk (absP c hgc P hP) (bitLen k.natAbs)
        (infinityPoint c) P (infinity_PtOk c) hP hstart
    refine ⟨V0, hV0, ?_, ?_⟩
    · rw [scalarMultiplySecure, if_neg h0, if_neg h1, hPc, hlen, hcomp]
      simp only [bind, Except.bind]
    · rw [habs0, absP_infinityPoint, hkx, nsmul_zero, zero_add]

/-- C5 (amended): on a validated curve with odd prime modulus and
nonnegative coefficients, `pointAdd` of two well-formed points on the
curve always completes without a division-by-zero error and its result
again satisfies `isOnCurve`. -/
theorem C5_pointAdd_closure (c : CurveParams) (hgc : GoodCurve c)
    {P Q : EPoint} (hP : PtOk c P) (hQ : PtOk c Q) :
    ∃ R : EPoint, pointAdd P Q = .ok R ∧ isOnCurve R = true := by
  haveI : Fact (Nat.Prime c.p.toNat) := ⟨hgc.2.1⟩
  obtain ⟨R, hR, hcomp, _⟩ := pointAdd_bridge c hgc hP hQ
  exact ⟨R, hcomp, hR.2.1⟩

/-- Witness for C5: adding `(0,1)` and `(2,2)` on `y² = x³ + 1` over `𝔽₅`
succeeds and stays on the curve. -/
theorem C5_pointAdd_closure_witness :
    ∃ R : EPoint, pointAdd ⟨0, 1, false, ⟨0, 1, 5⟩⟩ ⟨2, 2, false, ⟨0, 1, 5⟩⟩ = .ok R ∧
      isOnCurve R = true :=
  C5_pointAdd_closure ⟨0, 1, 5⟩
    ⟨by decide, by decide, by decide, by decide, by decide⟩
    ⟨rfl, by decide, by decide, by decide⟩
    ⟨rfl, by decide, by decide, by decide⟩

/-- C4 (amended): for every nonnegative scalar and well-formed point on a
validated curve with odd prime modulus and nonnegative coefficients, the
double-and-add `scalarMultiply` and the Montgomery-ladder
`scalarMultiplySecure` return identical results. -/
theorem C4_scalar_mult_agree (c : CurveParams) (hgc : GoodCurve c)
    {P : EPoint} (hP : PtOk c P) (k : Int) (hk : 0 ≤ k) :
    scalarMultiply k P = scalarMultiplySecure k P := by
  haveI : Fact (Nat.Prime c.p.toNat) := ⟨hgc.2.1⟩
  obtain ⟨R1, hR1, hc1, ha1⟩ := scalarMultiply_bridge c hgc hP k hk
  obtain ⟨R2, hR2, hc2, ha2⟩ := scalarMultiplySecure_bridge c hgc hP k hk
  have hR12 : R1 = R2 := absP_inj c hgc hR1 hR2 (by rw [ha1, ha2])
  rw [hc1, hc2, hR12]

/-- Witness for C4: both scalar-multiplication variants agree on
`5 • (1, 10)` over the curve `y² = x³ + 7` on `𝔽₂₃`. -/
theorem C4_scalar_mult_agree_witness :
    scalarMultiply 5 ⟨1, 10, false, ⟨0, 7, 23⟩⟩ =
      scalarMultiplySecure 5 ⟨1, 10, false, ⟨0, 7, 23⟩⟩ :=
  C4_scalar_mult_agree ⟨0, 7, 23⟩
    ⟨by decide, by decide, by decide, by decide, by decide⟩
    ⟨rfl, by decide, by decide, by decide⟩ 5 (by decide)
